import Mathlib

/-
  Verification development for the ConsensusCore repository.

  Shallow embedding of:
  * src/src/C++/Align/PairwiseAlignment.cpp  (pairwise aligner, transcripts,
    coordinate lifting, FromTranscript)
  * src/src/C++/Poa/PoaGraphTraversals.cpp   (tagSpan, consensusPath,
    threadFirstRead, tracebackAndThread)
  * the Integrator/Mutation layer, whose implementation is not among the
    sources (only its tests are); it is modelled from the spec where needed.

  Strings are embedded as `List Char`, C++ `int` scores as `Int`
  (no overflow is relevant to any claim: all inputs in scope are tiny),
  C++ `float` node scores as `ℚ` (the claims concern the comparison
  structure of the DP, not float rounding), exceptions as `Except`,
  and `NULL` results as `Option`.
-/

namespace ConsensusCore

/-- Error kinds thrown by the C++ code (`InvalidInputError`,
`UnsupportedFeatureError`). -/
inductive CCError where
  | invalidInput
  | unsupportedFeature
  deriving DecidableEq, Repr

/-- `enum AlignMode` from ConsensusCore/Align/AlignConfig.hpp. -/
inductive AlignMode where
  | GLOBAL
  | SEMIGLOBAL
  | LOCAL
  deriving DecidableEq, Repr

/-- `struct AlignParams` : match/mismatch/insert/delete integer scores. -/
structure AlignParams where
  Match : Int
  Mismatch : Int
  Insert : Int
  Delete : Int
  deriving DecidableEq, Repr

/-- `struct AlignConfig` : parameters plus the alignment mode. -/
structure AlignConfig where
  Params : AlignParams
  Mode : AlignMode
  deriving DecidableEq, Repr

/-- `Max3` from Utils.hpp (not among the sources; forced: the maximum of
three values is order-independent). -/
def Max3 (a b c : Int) : Int := max (max a b) c

/-- Modelled from the spec: `ArgMax3` from Utils.hpp is not among the
sources.  The spec fixes the traceback tie-break: "when scores tie, prefer
diagonal (Match/Mismatch), then insert, then delete", and the call site
passes (diagonal, insert, delete) expecting 0/1/2. -/
def ArgMax3 (a b c : Int) : Nat :=
  if b ≤ a ∧ c ≤ a then 0 else if c ≤ b then 1 else 2

/-- The Needleman-Wunsch score matrix of `Align`
(PairwiseAlignment.cpp lines 85-102), written with a structural fuel
argument so that every cell evaluates in the kernel; `NWScore` below
instantiates the fuel with `i + j`, which `nwScoreF_congr` proves
sufficient.  Cell `(i, j)` holds the best score of aligning
`query[0..i)` against `target[0..j)`.  Row/column 0 are the boundary
fills of the two `for` loops; the interior cell is the `Max3` recurrence.
The C++ loop nest fills each cell from already-filled cells, so the matrix
is exactly this recursion. -/
def NWScoreF (p : AlignParams) (target query : List Char) : Nat → Nat → Nat → Int
  | 0, _, _ => 0
  | _+1, 0, 0 => 0
  | _+1, i+1, 0 => (i+1 : Int) * p.Insert
  | _+1, 0, j+1 => (j+1 : Int) * p.Delete
  | f+1, i+1, j+1 =>
      Max3 (NWScoreF p target query f i j +
              (if query.getD i 'A' = target.getD j 'A' then p.Match else p.Mismatch))
           (NWScoreF p target query f i (j+1) + p.Insert)
           (NWScoreF p target query f (i+1) j + p.Delete)

/-- Cell `(i, j)` of the `Align` score matrix. -/
def NWScore (p : AlignParams) (target query : List Char) (i j : Nat) : Int :=
  NWScoreF p target query (i + j) i j

/-- The fuel argument of `NWScoreF` is irrelevant once it is at least
`i + j`. -/
theorem nwScoreF_congr (p : AlignParams) (target query : List Char) :
    ∀ (f g i j : Nat), i + j ≤ f → i + j ≤ g →
      NWScoreF p target query f i j = NWScoreF p target query g i j := by
  intro f
  induction f with
  | zero =>
      intro g i j hf hg
      have hi : i = 0 := by omega
      have hj : j = 0 := by omega
      subst hi; subst hj
      cases g with
      | zero => rfl
      | succ g => rfl
  | succ f ih =>
      intro g i j hf hg
      cases g with
      | zero =>
          have hi : i = 0 := by omega
          have hj : j = 0 := by omega
          subst hi; subst hj; rfl
      | succ g =>
          cases i with
          | zero =>
              cases j with
              | zero => rfl
              | succ j => rfl
          | succ i =>
              cases j with
              | zero => rfl
              | succ j =>
                  show Max3 _ _ _ = Max3 _ _ _
                  rw [ih g i j (by omega) (by omega),
                      ih g i (j+1) (by omega) (by omega),
                      ih g (i+1) j (by omega) (by omega)]

/-- `NWScore` satisfies the source's interior recurrence. -/
theorem NWScore_succ_succ (p : AlignParams) (target query : List Char) (i j : Nat) :
    NWScore p target query (i+1) (j+1) =
      Max3 (NWScore p target query i j +
              (if query.getD i 'A' = target.getD j 'A' then p.Match else p.Mismatch))
           (NWScore p target query i (j+1) + p.Insert)
           (NWScore p target query (i+1) j + p.Delete) := by
  show Max3 _ _ _ = Max3 _ _ _
  simp only [Nat.add_eq]
  rw [nwScoreF_congr p target query (i+1+j) (i+j) i j (by omega) (by omega),
      nwScoreF_congr p target query (i+1+j) (i+(j+1)) i (j+1) (by omega) (by omega)]
  rfl

/-- The traceback of `Align` (PairwiseAlignment.cpp lines 107-140), as the
list of aligned columns `(targetChar, queryChar)` produced from cell
`(i, j)` down to `(0, 0)`, in the order the C++ pushes them (last column
first; the C++ reverses the two accumulated strings at the end, here the
column list is reversed and projected instead).  `move` 0 is the diagonal,
1 insert (gap in target), 2 delete (gap in query).  Fuel as in
`NWScoreF`. -/
def NWTracebackF (p : AlignParams) (target query : List Char) :
    Nat → Nat → Nat → List (Char × Char)
  | 0, _, _ => []
  | _+1, 0, 0 => []
  | f+1, i+1, 0 => ('-', query.getD i 'A') :: NWTracebackF p target query f i 0
  | f+1, 0, j+1 => (target.getD j 'A', '-') :: NWTracebackF p target query f 0 j
  | f+1, i+1, j+1 =>
      let move := ArgMax3
        (NWScore p target query i j +
          (if query.getD i 'A' = target.getD j 'A' then p.Match else p.Mismatch))
        (NWScore p target query i (j+1) + p.Insert)
        (NWScore p target query (i+1) j + p.Delete)
      if move = 0 then
        (target.getD j 'A', query.getD i 'A') :: NWTracebackF p target query f i j
      else if move = 1 then
        ('-', query.getD i 'A') :: NWTracebackF p target query f i (j+1)
      else
        (target.getD j 'A', '-') :: NWTracebackF p target query f (i+1) j

/-- The traceback from cell `(i, j)`. -/
def NWTraceback (p : AlignParams) (target query : List Char) (i j : Nat) :
    List (Char × Char) :=
  NWTracebackF p target query (i + j) i j

/-- `class PairwiseAlignment` : aligned target, aligned query, and the
derived transcript. -/
structure PairwiseAlignment where
  target : List Char
  query : List Char
  transcript : List Char
  deriving DecidableEq, Repr

/-- One column of the transcript computation in the `PairwiseAlignment`
constructor (lines 54-72): `none` is the `(-,-)` column that throws. -/
def transcriptChar (t q : Char) : Option Char :=
  if t = '-' ∧ q = '-' then none
  else if t = q then some 'M'
  else if t = '-' then some 'I'
  else if q = '-' then some 'D'
  else some 'R'

/-- The transcript of an aligned pair, column by column; `none` when the
lengths differ or some column is `(-,-)`. -/
def mkTranscript : List Char → List Char → Option (List Char)
  | [], [] => some []
  | t :: ts, q :: qs => do
      let c ← transcriptChar t q
      let rest ← mkTranscript ts qs
      pure (c :: rest)
  | _, _ => none

/-- The `PairwiseAlignment(target, query)` constructor
(PairwiseAlignment.cpp lines 48-73): throws `InvalidInputError` when the
aligned lengths differ or a column has `-` in both strings; otherwise
derives the transcript.  Note the constructor performs no alphabet check. -/
def mkPairwiseAlignment (target query : List Char) : Except CCError PairwiseAlignment :=
  match mkTranscript target query with
  | none => .error .invalidInput
  | some x => .ok ⟨target, query, x⟩

/-- `Align(target, query, score, config)` (PairwiseAlignment.cpp lines
75-143): non-GLOBAL modes throw `UnsupportedFeatureError`; otherwise the DP
matrix is filled, the score at `(|query|, |target|)` is delivered, and the
aligned pair from the traceback is passed to the constructor (which may
itself throw). -/
def Align (target query : List Char) (config : AlignConfig) :
    Except CCError (PairwiseAlignment × Int) :=
  if config.Mode ≠ AlignMode.GLOBAL then .error .unsupportedFeature
  else
    let I := query.length
    let J := target.length
    let s := NWScore config.Params target query I J
    let cols := (NWTraceback config.Params target query I J).reverse
    (mkPairwiseAlignment (cols.map Prod.fst) (cols.map Prod.snd)).map (fun pa => (pa, s))

/-- `RemoveGaps` (Sequence.hpp): delete every `-`. -/
def stripGaps (s : List Char) : List Char := s.filter (fun c => c ≠ '-')

/-- The sentinel character a C++ `std::string` yields past its end in
`FromTranscript` (`'\0'`). -/
def nulChar : Char := Char.ofNat 0

/-- The loop of `PairwiseAlignment::FromTranscript` (PairwiseAlignment.cpp
lines 241-285): walks the transcript, reading `unalnTarget[tPos]` /
`unalnQuery[qPos]` (`'\0'` past the end), and builds the aligned pair
column by column; `none` is the C++ `return NULL`.  The guard
`tPos > tLen || qPos > qLen` opens each iteration; the final check demands
both strings be consumed exactly. -/
def fromTranscriptGo (tgt qry : List Char) :
    List Char → Nat → Nat → Option (List Char × List Char)
  | [], tPos, qPos =>
      if tPos = tgt.length ∧ qPos = qry.length then some ([], []) else none
  | x :: xs, tPos, qPos =>
      if tPos > tgt.length ∨ qPos > qry.length then none
      else
        if x = 'M' then
          if tgt.getD tPos nulChar ≠ qry.getD qPos nulChar then none
          else (fromTranscriptGo tgt qry xs (tPos+1) (qPos+1)).map
            (fun r => (tgt.getD tPos nulChar :: r.1, qry.getD qPos nulChar :: r.2))
        else if x = 'R' then
          if tgt.getD tPos nulChar = qry.getD qPos nulChar then none
          else (fromTranscriptGo tgt qry xs (tPos+1) (qPos+1)).map
            (fun r => (tgt.getD tPos nulChar :: r.1, qry.getD qPos nulChar :: r.2))
        else if x = 'I' then
          (fromTranscriptGo tgt qry xs tPos (qPos+1)).map
            (fun r => ('-' :: r.1, qry.getD qPos nulChar :: r.2))
        else if x = 'D' then
          (fromTranscriptGo tgt qry xs (tPos+1) qPos).map
            (fun r => (tgt.getD tPos nulChar :: r.1, '-' :: r.2))
        else none

/-- `PairwiseAlignment::FromTranscript(transcript, unalnTarget, unalnQuery)`
(PairwiseAlignment.cpp lines 228-290): `ok none` is the C++ `NULL` return;
`error` is an exception escaping from the final constructor call. -/
def FromTranscript (transcript unalnTarget unalnQuery : List Char) :
    Except CCError (Option PairwiseAlignment) :=
  match fromTranscriptGo unalnTarget unalnQuery transcript 0 0 with
  | none => .ok none
  | some (alnTarget, alnQuery) =>
      (mkPairwiseAlignment alnTarget alnQuery).map some

/-- Refinement definition, following the spec's words (claim C8): the
transcript "threads through" the two unaligned strings when every `M`
column pairs equal characters, every `R` column pairs distinct characters,
every symbol is one of `M R I D`, and the transcript consumes exactly both
strings. -/
def transcriptThreads : List Char → List Char → List Char → Bool
  | [], tgt, qry => tgt.isEmpty && qry.isEmpty
  | x :: xs, tgt, qry =>
      if x = 'M' then
        match tgt, qry with
        | t :: ts, q :: qs => t = q && transcriptThreads xs ts qs
        | _, _ => false
      else if x = 'R' then
        match tgt, qry with
        | t :: ts, q :: qs => t ≠ q && transcriptThreads xs ts qs
        | _, _ => false
      else if x = 'I' then
        match qry with
        | _ :: qs => transcriptThreads xs tgt qs
        | _ => false
      else if x = 'D' then
        match tgt with
        | _ :: ts => transcriptThreads xs ts qry
        | _ => false
      else false

/-! ### Helper lemmas about `mkTranscript` -/

instance {ε α : Type} [DecidableEq ε] [DecidableEq α] : DecidableEq (Except ε α) := fun a b =>
  match a, b with
  | .ok x, .ok y =>
      if h : x = y then .isTrue (by rw [h]) else .isFalse (fun hh => h (by cases hh; rfl))
  | .error x, .error y =>
      if h : x = y then .isTrue (by rw [h]) else .isFalse (fun hh => h (by cases hh; rfl))
  | .ok _, .error _ => .isFalse (fun hh => Except.noConfusion hh)
  | .error _, .ok _ => .isFalse (fun hh => Except.noConfusion hh)

theorem transcriptChar_isSome (a b : Char) (hd : ¬(a = '-' ∧ b = '-')) :
    ∃ c, transcriptChar a b = some c := by
  unfold transcriptChar
  rw [if_neg hd]
  by_cases h1 : a = b
  · exact ⟨'M', by rw [if_pos h1]⟩
  · rw [if_neg h1]
    by_cases h2 : a = '-'
    · exact ⟨'I', by rw [if_pos h2]⟩
    · rw [if_neg h2]
      by_cases h3 : b = '-'
      · exact ⟨'D', by rw [if_pos h3]⟩
      · rw [if_neg h3]
        exact ⟨'R', rfl⟩

theorem mkTranscript_eq_none_iff (target query : List Char) :
    mkTranscript target query = none ↔
      (target.length ≠ query.length ∨ ('-', '-') ∈ target.zip query) := by
  induction target generalizing query with
  | nil =>
      cases query with
      | nil => simp [mkTranscript]
      | cons b qs => simp [mkTranscript]
  | cons a ts ih =>
      cases query with
      | nil => simp [mkTranscript]
      | cons b qs =>
          by_cases hd : a = '-' ∧ b = '-'
          · obtain ⟨ha, hb⟩ := hd
            subst ha; subst hb
            simp [mkTranscript, transcriptChar]
          · obtain ⟨c, hc⟩ := transcriptChar_isSome a b hd
            have hpair : ¬((('-', '-') : Char × Char) = (a, b)) := by
              intro h
              exact hd ⟨(congrArg Prod.fst h).symm, (congrArg Prod.snd h).symm⟩
            constructor
            · intro h
              simp only [mkTranscript, hc, Option.bind_eq_bind, Option.some_bind] at h
              have hrest : mkTranscript ts qs = none := by
                cases hr : mkTranscript ts qs with
                | none => rfl
                | some r => rw [hr] at h; simp at h
              rcases (ih qs).mp hrest with h1 | h2
              · left
                intro hh
                apply h1
                simpa using hh
              · right
                rw [List.zip_cons_cons]
                exact List.mem_cons.mpr (Or.inr h2)
            · intro h
              have hrest : mkTranscript ts qs = none := by
                apply (ih qs).mpr
                rcases h with h1 | h2
                · left
                  intro hh
                  apply h1
                  simp [hh]
                · right
                  rw [List.zip_cons_cons] at h2
                  rcases List.mem_cons.mp h2 with he | hm
                  · exact absurd he hpair
                  · exact hm
              simp only [mkTranscript, hc, Option.bind_eq_bind, Option.some_bind, hrest,
                Option.none_bind]

/-! ### Claim C2: the Align DP matrix and the returned score -/

/-- Claim C2: in GLOBAL mode, `Align` fills the `(|q|+1) × (|t|+1)` score
matrix with row 0 equal to `j·delete`, column 0 equal to `i·insert`, and
the `Max3` interior recurrence over match/mismatch, insert and delete; and
whenever `Align` returns, the returned score is the corner cell
`S(|query|, |target|)`. -/
theorem C2_align_dp_matrix (target query : List Char) (config : AlignConfig)
    (hmode : config.Mode = AlignMode.GLOBAL) :
    (∀ j, NWScore config.Params target query 0 (j+1) = (j+1 : Int) * config.Params.Delete) ∧
    (∀ i, NWScore config.Params target query (i+1) 0 = (i+1 : Int) * config.Params.Insert) ∧
    (∀ i j, NWScore config.Params target query (i+1) (j+1) =
        Max3 (NWScore config.Params target query i j +
                (if query.getD i 'A' = target.getD j 'A' then config.Params.Match
                 else config.Params.Mismatch))
             (NWScore config.Params target query i (j+1) + config.Params.Insert)
             (NWScore config.Params target query (i+1) j + config.Params.Delete)) ∧
    (∀ pa s, Align target query config = .ok (pa, s) →
        s = NWScore config.Params target query query.length target.length) := by
  refine ⟨fun j => rfl, fun i => rfl, fun i j => NWScore_succ_succ _ _ _ i j, fun pa s h => ?_⟩
  unfold Align at h
  rw [hmode] at h
  simp only [ne_eq, not_true_eq_false, if_false, reduceIte] at h
  cases hm : mkPairwiseAlignment
      (((NWTraceback config.Params target query query.length target.length).reverse).map Prod.fst)
      (((NWTraceback config.Params target query query.length target.length).reverse).map Prod.snd) with
  | error e => rw [hm] at h; simp [Except.map] at h
  | ok pa2 =>
      rw [hm] at h
      simp only [Except.map, Except.ok.injEq, Prod.mk.injEq] at h
      exact h.2.symm

/-- Witness for C2 at a concrete input: `Align("GAT", "GT")` with scores
(3, −1, −1, −1) returns score 5, which is the DP corner value. -/
theorem C2_align_dp_matrix_witness :
    Align "GAT".toList "GT".toList ⟨⟨3, -1, -1, -1⟩, AlignMode.GLOBAL⟩ =
      .ok (⟨"GAT".toList, "G-T".toList, "MDM".toList⟩, 5) ∧
    (5 : Int) = NWScore ⟨3, -1, -1, -1⟩ "GAT".toList "GT".toList 2 3 := by
  have h := C2_align_dp_matrix "GAT".toList "GT".toList ⟨⟨3, -1, -1, -1⟩, AlignMode.GLOBAL⟩ rfl
  have ha : Align "GAT".toList "GT".toList ⟨⟨3, -1, -1, -1⟩, AlignMode.GLOBAL⟩ =
      .ok (⟨"GAT".toList, "G-T".toList, "MDM".toList⟩, 5) := by decide
  exact ⟨ha, h.2.2.2 _ 5 ha⟩

/-! ### Claim C9: which inputs make the aligned-pair constructor throw -/

/-- Counterexample to claim C9 as stated: the constructor accepts `'X'`,
a character outside `{A,C,G,T,-}`, instead of signalling `InvalidInput`
(the C++ constructor performs no alphabet check). -/
theorem C9_counterexample :
    mkPairwiseAlignment ['X'] ['X'] = .ok ⟨['X'], ['X'], ['M']⟩ ∧
    ('X' ∉ (['A', 'C', 'G', 'T', '-'] : List Char)) := by decide

/-- Claim C9 as amended: the constructor signals `InvalidInput` exactly for
mismatched aligned lengths or a column with `-` in both strings; no
alphabet check is performed, and every other input succeeds. -/
theorem C9_constructor_error_iff (target query : List Char) :
    mkPairwiseAlignment target query = .error .invalidInput ↔
      (target.length ≠ query.length ∨ ('-', '-') ∈ target.zip query) := by
  rw [← mkTranscript_eq_none_iff]
  unfold mkPairwiseAlignment
  cases h : mkTranscript target query with
  | none => simp
  | some x => simp

/-! ### Claim C10: Align output well-formedness -/

/-- Counterexample to claim C10 as stated: on inputs containing `-`
(the claim quantifies over "any characters"), `Align` throws
`InvalidInputError` from the constructor instead of returning an aligned
pair: both traceback strings get a `-` in the same column. -/
theorem C10_counterexample :
    Align ['-'] ['-'] ⟨⟨3, -1, -1, -1⟩, AlignMode.GLOBAL⟩ = .error .invalidInput := by
  decide

theorem take_succ_reverse (l : List Char) (i : Nat) (h : i < l.length) (d : Char) :
    (l.take (i+1)).reverse = l.getD i d :: (l.take i).reverse := by
  rw [List.take_succ, List.getElem?_eq_getElem h, List.getD_eq_getElem l d h]
  simp [List.reverse_append]

theorem zip_map_fst_snd_self {α β : Type} :
    ∀ (l : List (α × β)), (l.map Prod.fst).zip (l.map Prod.snd) = l
  | [] => rfl
  | (a, b) :: r => by simp [zip_map_fst_snd_self r]

/-- The key properties of the `Align` traceback on gap-free inputs: the
non-gap characters of the target side are exactly the consumed target
prefix (reversed, since columns are produced back to front), likewise for
the query side, and no column carries `-` on both sides. -/
theorem nwTracebackF_props (p : AlignParams) (target query : List Char)
    (ht : ∀ c ∈ target, c ≠ '-') (hq : ∀ c ∈ query, c ≠ '-') :
    ∀ (f i j : Nat), i + j ≤ f → i ≤ query.length → j ≤ target.length →
      ((NWTracebackF p target query f i j).map Prod.fst).filter (fun c => c ≠ '-') =
        (target.take j).reverse ∧
      ((NWTracebackF p target query f i j).map Prod.snd).filter (fun c => c ≠ '-') =
        (query.take i).reverse ∧
      ∀ col ∈ NWTracebackF p target query f i j, ¬(col.1 = '-' ∧ col.2 = '-') := by
  intro f
  induction f with
  | zero =>
      intro i j hf hi hj
      have hi0 : i = 0 := by omega
      have hj0 : j = 0 := by omega
      subst hi0; subst hj0
      refine ⟨rfl, rfl, ?_⟩
      intro col hcol
      simp [NWTracebackF] at hcol
  | succ f ih =>
      intro i j hf hi hj
      have hqd : ∀ k, k < query.length → query.getD k 'A' ≠ '-' := by
        intro k hk
        rw [List.getD_eq_getElem query 'A' hk]
        exact hq _ (List.getElem_mem hk)
      have htd : ∀ k, k < target.length → target.getD k 'A' ≠ '-' := by
        intro k hk
        rw [List.getD_eq_getElem target 'A' hk]
        exact ht _ (List.getElem_mem hk)
      cases i with
      | zero =>
          cases j with
          | zero =>
              refine ⟨rfl, rfl, ?_⟩
              intro col hcol
              simp [NWTracebackF] at hcol
          | succ j =>
              have hjlt : j < target.length := by omega
              obtain ⟨h1, h2, h3⟩ := ih 0 j (by omega) (by omega) (by omega)
              refine ⟨?_, ?_, ?_⟩
              · show List.filter _ (List.map _ ((target.getD j 'A', '-') ::
                    NWTracebackF p target query f 0 j)) = _
                rw [List.map_cons, List.filter_cons_of_pos (by simpa using htd j hjlt), h1,
                  take_succ_reverse target j hjlt 'A']
              · show List.filter _ (List.map _ ((target.getD j 'A', '-') ::
                    NWTracebackF p target query f 0 j)) = _
                rw [List.map_cons, List.filter_cons_of_neg (by simp), h2]
              · intro col hcol
                rcases List.mem_cons.mp hcol with he | hm
                · subst he
                  intro hcon
                  exact htd j hjlt hcon.1
                · exact h3 col hm
      | succ i =>
          have hilt : i < query.length := by omega
          cases j with
          | zero =>
              obtain ⟨h1, h2, h3⟩ := ih i 0 (by omega) (by omega) (by omega)
              refine ⟨?_, ?_, ?_⟩
              · show List.filter _ (List.map _ (('-', query.getD i 'A') ::
                    NWTracebackF p target query f i 0)) = _
                rw [List.map_cons, List.filter_cons_of_neg (by simp), h1]
              · show List.filter _ (List.map _ (('-', query.getD i 'A') ::
                    NWTracebackF p target query f i 0)) = _
                rw [List.map_cons, List.filter_cons_of_pos (by simpa using hqd i hilt), h2,
                  take_succ_reverse query i hilt 'A']
              · intro col hcol
                rcases List.mem_cons.mp hcol with he | hm
                · subst he
                  intro hcon
                  exact hqd i hilt hcon.2
                · exact h3 col hm
          | succ j =>
              have hjlt : j < target.length := by omega
              set move := ArgMax3
                (NWScore p target query i j +
                  (if query.getD i 'A' = target.getD j 'A' then p.Match else p.Mismatch))
                (NWScore p target query i (j+1) + p.Insert)
                (NWScore p target query (i+1) j + p.Delete) with hmove
              have hstep : NWTracebackF p target query (f+1) (i+1) (j+1) =
                  (if move = 0 then
                    (target.getD j 'A', query.getD i 'A') :: NWTracebackF p target query f i j
                  else if move = 1 then
                    ('-', query.getD i 'A') :: NWTracebackF p target query f i (j+1)
                  else
                    (target.getD j 'A', '-') :: NWTracebackF p target query f (i+1) j) := rfl
              by_cases hm0 : move = 0
              · obtain ⟨h1, h2, h3⟩ := ih i j (by omega) (by omega) (by omega)
                rw [hstep, if_pos hm0]
                refine ⟨?_, ?_, ?_⟩
                · rw [List.map_cons, List.filter_cons_of_pos (by simpa using htd j hjlt), h1,
                    take_succ_reverse target j hjlt 'A']
                · rw [List.map_cons, List.filter_cons_of_pos (by simpa using hqd i hilt), h2,
                    take_succ_reverse query i hilt 'A']
                · intro col hcol
                  rcases List.mem_cons.mp hcol with he | hmm
                  · subst he
                    intro hcon
                    exact htd j hjlt hcon.1
                  · exact h3 col hmm
              · by_cases hm1 : move = 1
                · obtain ⟨h1, h2, h3⟩ := ih i (j+1) (by omega) (by omega) (by omega)
                  rw [hstep, if_neg hm0, if_pos hm1]
                  refine ⟨?_, ?_, ?_⟩
                  · rw [List.map_cons, List.filter_cons_of_neg (by simp), h1]
                  · rw [List.map_cons, List.filter_cons_of_pos (by simpa using hqd i hilt), h2,
                      take_succ_reverse query i hilt 'A']
                  · intro col hcol
                    rcases List.mem_cons.mp hcol with he | hmm
                    · subst he
                      intro hcon
                      exact hqd i hilt hcon.2
                    · exact h3 col hmm
                · obtain ⟨h1, h2, h3⟩ := ih (i+1) j (by omega) (by omega) (by omega)
                  rw [hstep, if_neg hm0, if_neg hm1]
                  refine ⟨?_, ?_, ?_⟩
                  · rw [List.map_cons, List.filter_cons_of_pos (by simpa using htd j hjlt), h1,
                      take_succ_reverse target j hjlt 'A']
                  · rw [List.map_cons, List.filter_cons_of_neg (by simp), h2]
                  · intro col hcol
                    rcases List.mem_cons.mp hcol with he | hmm
                    · subst he
                      intro hcon
                      exact htd j hjlt hcon.1
                    · exact h3 col hmm

/-- Claim C10 as amended: for every target and query **over gap-free
characters**, `Align` in GLOBAL mode returns an aligned pair of equal
lengths whose gap-stripped sides are the original inputs and which has no
column with `-` on both sides.  (As stated over arbitrary characters the
claim fails: see `C10_counterexample`.) -/
theorem C10_align_wellformed (target query : List Char) (config : AlignConfig)
    (hmode : config.Mode = AlignMode.GLOBAL)
    (ht : ∀ c ∈ target, c ≠ '-') (hq : ∀ c ∈ query, c ≠ '-') :
    (Align target query config).isOk = true ∧
    ∀ pa s, Align target query config = .ok (pa, s) →
      pa.target.length = pa.query.length ∧
      stripGaps pa.target = target ∧
      stripGaps pa.query = query ∧
      ('-', '-') ∉ pa.target.zip pa.query := by
  obtain ⟨h1, h2, h3⟩ := nwTracebackF_props config.Params target query ht hq
    (query.length + target.length) query.length target.length (le_refl _)
    (le_refl _) (le_refl _)
  set tb := NWTracebackF config.Params target query (query.length + target.length)
    query.length target.length with htb
  have haT : stripGaps ((tb.reverse).map Prod.fst) = target := by
    rw [List.map_reverse]
    unfold stripGaps
    rw [List.filter_reverse, h1, List.take_length, List.reverse_reverse]
  have haQ : stripGaps ((tb.reverse).map Prod.snd) = query := by
    rw [List.map_reverse]
    unfold stripGaps
    rw [List.filter_reverse, h2, List.take_length, List.reverse_reverse]
  have hzip : ((tb.reverse).map Prod.fst).zip ((tb.reverse).map Prod.snd) = tb.reverse :=
    zip_map_fst_snd_self tb.reverse
  have hnog : ('-', '-') ∉ ((tb.reverse).map Prod.fst).zip ((tb.reverse).map Prod.snd) := by
    rw [hzip]
    intro hmem
    exact h3 _ (List.mem_reverse.mp hmem) ⟨rfl, rfl⟩
  have hlen : ((tb.reverse).map Prod.fst).length = ((tb.reverse).map Prod.snd).length := by
    simp
  have hmk : ∃ w, mkPairwiseAlignment ((tb.reverse).map Prod.fst) ((tb.reverse).map Prod.snd) =
      .ok ⟨(tb.reverse).map Prod.fst, (tb.reverse).map Prod.snd, w⟩ := by
    have hnone : mkTranscript ((tb.reverse).map Prod.fst) ((tb.reverse).map Prod.snd) ≠ none := by
      intro hn
      rcases (mkTranscript_eq_none_iff _ _).mp hn with hbad | hbad
      · exact hbad hlen
      · rw [hzip] at hbad
        exact h3 _ (List.mem_reverse.mp hbad) ⟨rfl, rfl⟩
    unfold mkPairwiseAlignment
    cases hmt : mkTranscript ((tb.reverse).map Prod.fst) ((tb.reverse).map Prod.snd) with
    | none => exact absurd hmt hnone
    | some w => exact ⟨w, rfl⟩
  obtain ⟨w, hmk⟩ := hmk
  have halign : Align target query config =
      .ok (⟨(tb.reverse).map Prod.fst, (tb.reverse).map Prod.snd, w⟩,
        NWScore config.Params target query query.length target.length) := by
    unfold Align
    rw [hmode]
    simp only [ne_eq, not_true_eq_false, if_false, reduceIte]
    rw [show NWTraceback config.Params target query query.length target.length = tb from rfl]
    rw [hmk]
    rfl
  constructor
  · rw [halign]; rfl
  · intro pa s h
    rw [halign] at h
    have hpa : pa = ⟨(tb.reverse).map Prod.fst, (tb.reverse).map Prod.snd, w⟩ := by
      cases h; rfl
    subst hpa
    exact ⟨hlen, haT, haQ, hnog⟩

/-- Witness for the amended C10 at a concrete input (`target = "GAT"`,
`query = "GT"`). -/
theorem C10_align_wellformed_witness :
    Align "GAT".toList "GT".toList ⟨⟨3, -1, -1, -1⟩, AlignMode.GLOBAL⟩ =
      .ok (⟨"GAT".toList, "G-T".toList, "MDM".toList⟩, 5) ∧
    "GAT".toList.length = "G-T".toList.length ∧
    stripGaps "GAT".toList = "GAT".toList ∧
    stripGaps "G-T".toList = "GT".toList ∧
    ('-', '-') ∉ "GAT".toList.zip "G-T".toList := by
  have h := C10_align_wellformed "GAT".toList "GT".toList ⟨⟨3, -1, -1, -1⟩, AlignMode.GLOBAL⟩
    rfl (by decide) (by decide)
  have ha : Align "GAT".toList "GT".toList ⟨⟨3, -1, -1, -1⟩, AlignMode.GLOBAL⟩ =
      .ok (⟨"GAT".toList, "G-T".toList, "MDM".toList⟩, 5) := by decide
  have h2 := h.2 ⟨"GAT".toList, "G-T".toList, "MDM".toList⟩ 5 ha
  exact ⟨ha, h2.1, h2.2.1, h2.2.2.1, h2.2.2.2⟩

/-! ### Claim C3: transcript round-trip -/

theorem stripGaps_cons_keep (a : Char) (l : List Char) (h : a ≠ '-') :
    stripGaps (a :: l) = a :: stripGaps l := by
  simp [stripGaps, h]

theorem stripGaps_cons_gap (l : List Char) : stripGaps ('-' :: l) = stripGaps l := by
  simp [stripGaps]

theorem drop_eq_cons_getD (l : List Char) (n : Nat) (a : Char) (r : List Char)
    (h : l.drop n = a :: r) : l.getD n nulChar = a ∧ l.drop (n+1) = r ∧ n < l.length := by
  have hn : n < l.length := by
    by_contra hc
    push_neg at hc
    rw [List.drop_eq_nil_iff.mpr hc] at h
    exact List.noConfusion h
  rw [List.drop_eq_getElem_cons hn] at h
  refine ⟨?_, ?_, hn⟩
  · rw [List.getD_eq_getElem l nulChar hn]
    exact (List.cons.injEq _ _ _ _ ▸ h).1
  · exact (List.cons.injEq _ _ _ _ ▸ h).2

theorem mkTranscript_cons_some {a b : Char} {ts qs x : List Char}
    (h : mkTranscript (a :: ts) (b :: qs) = some x) :
    ∃ c xs, transcriptChar a b = some c ∧ mkTranscript ts qs = some xs ∧ x = c :: xs := by
  cases hc : transcriptChar a b with
  | none => simp [mkTranscript, hc] at h
  | some c =>
      cases hr : mkTranscript ts qs with
      | none => simp [mkTranscript, hc, hr] at h
      | some xs =>
          refine ⟨c, xs, rfl, rfl, ?_⟩
          simp [mkTranscript, hc, hr] at h
          exact h.symm

theorem transcriptChar_cases (a b c : Char) (h : transcriptChar a b = some c) :
    (c = 'M' ∧ a = b ∧ ¬(a = '-' ∧ b = '-')) ∨
    (c = 'I' ∧ a = '-' ∧ b ≠ '-' ∧ a ≠ b) ∨
    (c = 'D' ∧ b = '-' ∧ a ≠ '-' ∧ a ≠ b) ∨
    (c = 'R' ∧ a ≠ b ∧ a ≠ '-' ∧ b ≠ '-') := by
  unfold transcriptChar at h
  by_cases hd : a = '-' ∧ b = '-'
  · rw [if_pos hd] at h; exact absurd h (by simp)
  · rw [if_neg hd] at h
    by_cases h1 : a = b
    · rw [if_pos h1] at h
      left
      exact ⟨(Option.some.injEq _ _ ▸ h).symm, h1, hd⟩
    · rw [if_neg h1] at h
      by_cases h2 : a = '-'
      · rw [if_pos h2] at h
        right; left
        refine ⟨(Option.some.injEq _ _ ▸ h).symm, h2, ?_, h1⟩
        intro hb
        exact hd ⟨h2, hb⟩
      · rw [if_neg h2] at h
        by_cases h3 : b = '-'
        · rw [if_pos h3] at h
          right; right; left
          exact ⟨(Option.some.injEq _ _ ▸ h).symm, h3, h2, h1⟩
        · rw [if_neg h3] at h
          right; right; right
          exact ⟨(Option.some.injEq _ _ ▸ h).symm, h1, h2, h3⟩

theorem fromTranscriptGo_roundtrip (tgt qry : List Char) :
    ∀ (A Q x : List Char), mkTranscript A Q = some x →
      ∀ tPos qPos, tgt.drop tPos = stripGaps A → qry.drop qPos = stripGaps Q →
        tPos ≤ tgt.length → qPos ≤ qry.length →
        fromTranscriptGo tgt qry x tPos qPos = some (A, Q) := by
  intro A
  induction A with
  | nil =>
      intro Q x h tPos qPos hdt hdq htl hql
      cases Q with
      | nil =>
          have hx : x = [] := by
            simp [mkTranscript] at h
            exact h
          subst hx
          have ht : tPos = tgt.length := by
            have := List.drop_eq_nil_iff.mp (by rw [hdt]; rfl)
            omega
          have hq : qPos = qry.length := by
            have := List.drop_eq_nil_iff.mp (by rw [hdq]; rfl)
            omega
          simp [fromTranscriptGo, ht, hq]
      | cons b qs => simp [mkTranscript] at h
  | cons a ts ih =>
      intro Q x h tPos qPos hdt hdq htl hql
      cases Q with
      | nil => simp [mkTranscript] at h
      | cons b qs =>
          obtain ⟨c, xs, hc, hrest, hx⟩ := mkTranscript_cons_some h
          subst hx
          rcases transcriptChar_cases a b c hc with
            ⟨hcM, hab, hnd⟩ | ⟨hcI, ha, hb, hab⟩ | ⟨hcD, hb, ha, hab⟩ | ⟨hcR, hab, ha, hb⟩
          · -- Match column: a = b, both non-gap
            subst hcM
            have ha : a ≠ '-' := fun hh => hnd ⟨hh, hab ▸ hh⟩
            have hb : b ≠ '-' := fun hh => hnd ⟨hab.symm ▸ hh, hh⟩
            rw [stripGaps_cons_keep a ts ha] at hdt
            rw [stripGaps_cons_keep b qs hb] at hdq
            obtain ⟨hgt, hdt2, hlt⟩ := drop_eq_cons_getD tgt tPos a _ hdt
            obtain ⟨hgq, hdq2, hlq⟩ := drop_eq_cons_getD qry qPos b _ hdq
            show fromTranscriptGo tgt qry ('M' :: xs) tPos qPos = _
            unfold fromTranscriptGo
            rw [if_neg (by omega)]
            rw [if_pos rfl]
            rw [hgt, hgq]
            rw [if_neg (fun hh => hh hab)]
            rw [ih qs xs hrest (tPos+1) (qPos+1) hdt2 hdq2 (by omega) (by omega)]
            simp [hab]
          · -- Insertion column: a = '-', b real
            subst hcI
            rw [ha] at hdt
            rw [stripGaps_cons_gap ts] at hdt
            rw [stripGaps_cons_keep b qs hb] at hdq
            obtain ⟨hgq, hdq2, hlq⟩ := drop_eq_cons_getD qry qPos b _ hdq
            show fromTranscriptGo tgt qry ('I' :: xs) tPos qPos = _
            unfold fromTranscriptGo
            rw [if_neg (by omega)]
            rw [if_neg (by decide), if_neg (by decide), if_pos rfl]
            rw [hgq]
            rw [ih qs xs hrest tPos (qPos+1) hdt hdq2 htl (by omega)]
            simp [ha]
          · -- Deletion column: b = '-', a real
            subst hcD
            rw [hb] at hdq
            rw [stripGaps_cons_gap qs] at hdq
            rw [stripGaps_cons_keep a ts ha] at hdt
            obtain ⟨hgt, hdt2, hlt⟩ := drop_eq_cons_getD tgt tPos a _ hdt
            show fromTranscriptGo tgt qry ('D' :: xs) tPos qPos = _
            unfold fromTranscriptGo
            rw [if_neg (by omega)]
            rw [if_neg (by decide), if_neg (by decide), if_neg (by decide), if_pos rfl]
            rw [hgt]
            rw [ih qs xs hrest (tPos+1) qPos hdt2 hdq (by omega) hql]
            simp [hb]
          · -- Replacement column: distinct real characters
            subst hcR
            rw [stripGaps_cons_keep a ts ha] at hdt
            rw [stripGaps_cons_keep b qs hb] at hdq
            obtain ⟨hgt, hdt2, hlt⟩ := drop_eq_cons_getD tgt tPos a _ hdt
            obtain ⟨hgq, hdq2, hlq⟩ := drop_eq_cons_getD qry qPos b _ hdq
            show fromTranscriptGo tgt qry ('R' :: xs) tPos qPos = _
            unfold fromTranscriptGo
            rw [if_neg (by omega)]
            rw [if_neg (by decide), if_pos rfl]
            rw [hgt, hgq]
            rw [if_neg hab]
            rw [ih qs xs hrest (tPos+1) (qPos+1) hdt2 hdq2 (by omega) (by omega)]
            rfl

theorem mkTranscript_isSome_of (A Q : List Char) (hlen : A.length = Q.length)
    (hcol : ∀ p ∈ A.zip Q, ¬(p.1 = '-' ∧ p.2 = '-')) :
    ∃ x, mkTranscript A Q = some x := by
  cases h : mkTranscript A Q with
  | some x => exact ⟨x, rfl⟩
  | none =>
      rcases (mkTranscript_eq_none_iff A Q).mp h with h1 | h2
      · exact absurd hlen h1
      · exact absurd ⟨rfl, rfl⟩ (hcol _ h2)

/-- Claim C3: for an aligned pair `(A, Q)` of equal length with no `(-,-)`
column, the constructor succeeds, and `FromTranscript` applied to the
derived transcript and the gap-stripped strings rebuilds exactly the
alignment `(A, Q)`. -/
theorem C3_transcript_roundtrip (A Q : List Char) (hlen : A.length = Q.length)
    (hcol : ∀ p ∈ A.zip Q, ¬(p.1 = '-' ∧ p.2 = '-')) :
    (mkPairwiseAlignment A Q).isOk = true ∧
    ∀ pa, mkPairwiseAlignment A Q = .ok pa →
      pa.target = A ∧ pa.query = Q ∧
      FromTranscript pa.transcript (stripGaps A) (stripGaps Q) = .ok (some pa) := by
  obtain ⟨x, hx⟩ := mkTranscript_isSome_of A Q hlen hcol
  have hmk : mkPairwiseAlignment A Q = .ok ⟨A, Q, x⟩ := by
    unfold mkPairwiseAlignment
    rw [hx]
  refine ⟨by rw [hmk]; rfl, ?_⟩
  intro pa hpa
  rw [hmk] at hpa
  have hpa2 : pa = ⟨A, Q, x⟩ := by cases hpa; rfl
  subst hpa2
  refine ⟨rfl, rfl, ?_⟩
  show FromTranscript x (stripGaps A) (stripGaps Q) = _
  unfold FromTranscript
  rw [fromTranscriptGo_roundtrip (stripGaps A) (stripGaps Q) A Q x hx 0 0
    (List.drop_zero _) (List.drop_zero _) (by omega) (by omega)]
  show Except.map some (mkPairwiseAlignment A Q) = _
  rw [hmk]
  rfl

/-- Witness for C3 at `(A, Q) = ("A-C", "AG-")`: the transcript is `MID`
and the round-trip restores the aligned pair exactly. -/
theorem C3_transcript_roundtrip_witness :
    FromTranscript "MID".toList "AC".toList "AG".toList =
      .ok (some ⟨"A-C".toList, "AG-".toList, "MID".toList⟩) := by
  have h := C3_transcript_roundtrip "A-C".toList "AG-".toList (by decide) (by decide)
  have h2 := (h.2 ⟨"A-C".toList, "AG-".toList, "MID".toList⟩ (by decide)).2.2
  exact h2

/-! ### Claim C8: the FromTranscript failure contract -/

theorem fromTranscriptGo_none_of_out (tgt qry : List Char) (xs : List Char) (tPos qPos : Nat)
    (h : tPos > tgt.length ∨ qPos > qry.length) :
    fromTranscriptGo tgt qry xs tPos qPos = none := by
  cases xs with
  | nil =>
      show (if tPos = tgt.length ∧ qPos = qry.length then
        some (([] : List Char), ([] : List Char)) else none) = none
      rw [if_neg (by omega)]
  | cons x xs =>
      show (if tPos > tgt.length ∨ qPos > qry.length then none else _) = none
      rw [if_pos h]

theorem fromTranscriptGo_cons_M (tgt qry cs : List Char) (tPos qPos : Nat)
    (hg : ¬(tPos > tgt.length ∨ qPos > qry.length)) :
    fromTranscriptGo tgt qry ('M' :: cs) tPos qPos =
      if tgt.getD tPos nulChar ≠ qry.getD qPos nulChar then none
      else (fromTranscriptGo tgt qry cs (tPos+1) (qPos+1)).map
        (fun r => (tgt.getD tPos nulChar :: r.1, qry.getD qPos nulChar :: r.2)) := by
  show (if tPos > tgt.length ∨ qPos > qry.length then none else _) = _
  rw [if_neg hg]
  rfl

theorem fromTranscriptGo_cons_R (tgt qry cs : List Char) (tPos qPos : Nat)
    (hg : ¬(tPos > tgt.length ∨ qPos > qry.length)) :
    fromTranscriptGo tgt qry ('R' :: cs) tPos qPos =
      if tgt.getD tPos nulChar = qry.getD qPos nulChar then none
      else (fromTranscriptGo tgt qry cs (tPos+1) (qPos+1)).map
        (fun r => (tgt.getD tPos nulChar :: r.1, qry.getD qPos nulChar :: r.2)) := by
  show (if tPos > tgt.length ∨ qPos > qry.length then none else _) = _
  rw [if_neg hg]
  rfl

theorem fromTranscriptGo_cons_I (tgt qry cs : List Char) (tPos qPos : Nat)
    (hg : ¬(tPos > tgt.length ∨ qPos > qry.length)) :
    fromTranscriptGo tgt qry ('I' :: cs) tPos qPos =
      (fromTranscriptGo tgt qry cs tPos (qPos+1)).map
        (fun r => ('-' :: r.1, qry.getD qPos nulChar :: r.2)) := by
  show (if tPos > tgt.length ∨ qPos > qry.length then none else _) = _
  rw [if_neg hg]
  rfl

theorem fromTranscriptGo_cons_D (tgt qry cs : List Char) (tPos qPos : Nat)
    (hg : ¬(tPos > tgt.length ∨ qPos > qry.length)) :
    fromTranscriptGo tgt qry ('D' :: cs) tPos qPos =
      (fromTranscriptGo tgt qry cs (tPos+1) qPos).map
        (fun r => (tgt.getD tPos nulChar :: r.1, '-' :: r.2)) := by
  show (if tPos > tgt.length ∨ qPos > qry.length then none else _) = _
  rw [if_neg hg]
  rfl

theorem fromTranscriptGo_cons_other (tgt qry cs : List Char) (c : Char) (tPos qPos : Nat)
    (hM : c ≠ 'M') (hR : c ≠ 'R') (hI : c ≠ 'I') (hD : c ≠ 'D') :
    fromTranscriptGo tgt qry (c :: cs) tPos qPos = none := by
  by_cases hg : tPos > tgt.length ∨ qPos > qry.length
  · exact fromTranscriptGo_none_of_out tgt qry (c :: cs) tPos qPos hg
  · show (if tPos > tgt.length ∨ qPos > qry.length then none else _) = _
    rw [if_neg hg, if_neg hM, if_neg hR, if_neg hI, if_neg hD]

theorem fromTranscriptGo_isSome_eq_threads (tgt qry : List Char) :
    ∀ (xs : List Char) (tPos qPos : Nat), tPos ≤ tgt.length → qPos ≤ qry.length →
      (fromTranscriptGo tgt qry xs tPos qPos).isSome =
        transcriptThreads xs (tgt.drop tPos) (qry.drop qPos) := by
  intro xs
  induction xs with
  | nil =>
      intro tPos qPos htl hql
      show (if tPos = tgt.length ∧ qPos = qry.length then
          some (([] : List Char), ([] : List Char)) else none).isSome =
        ((tgt.drop tPos).isEmpty && (qry.drop qPos).isEmpty)
      by_cases h1 : tPos = tgt.length
      · by_cases h2 : qPos = qry.length
        · rw [if_pos ⟨h1, h2⟩,
            List.drop_eq_nil_iff.mpr (le_of_eq h1.symm),
            List.drop_eq_nil_iff.mpr (le_of_eq h2.symm)]
          rfl
        · rw [if_neg (by omega)]
          have e2 : qry.drop qPos ≠ [] := by
            rw [Ne, List.drop_eq_nil_iff]
            omega
          cases hD : qry.drop qPos with
          | nil => exact absurd hD e2
          | cons b qs => simp
      · rw [if_neg (by omega)]
        have e1 : tgt.drop tPos ≠ [] := by
          rw [Ne, List.drop_eq_nil_iff]
          omega
        cases hD : tgt.drop tPos with
        | nil => exact absurd hD e1
        | cons a ts => simp
  | cons c cs ih =>
      intro tPos qPos htl hql
      have hguard : ¬(tPos > tgt.length ∨ qPos > qry.length) := by omega
      by_cases hM : c = 'M'
      · subst hM
        rw [fromTranscriptGo_cons_M tgt qry cs tPos qPos hguard]
        cases hdt : tgt.drop tPos with
        | nil =>
            have ht : tgt.length ≤ tPos := List.drop_eq_nil_iff.mp hdt
            by_cases heq : tgt.getD tPos nulChar = qry.getD qPos nulChar
            · rw [if_neg (fun hh => hh heq),
                fromTranscriptGo_none_of_out tgt qry cs (tPos+1) (qPos+1) (Or.inl (by omega))]
              rfl
            · rw [if_pos heq]
              rfl
        | cons a ts2 =>
            obtain ⟨hgt, hdt2, hlt⟩ := drop_eq_cons_getD tgt tPos a ts2 hdt
            cases hdq : qry.drop qPos with
            | nil =>
                have hq2 : qry.length ≤ qPos := List.drop_eq_nil_iff.mp hdq
                by_cases heq : tgt.getD tPos nulChar = qry.getD qPos nulChar
                · rw [if_neg (fun hh => hh heq),
                    fromTranscriptGo_none_of_out tgt qry cs (tPos+1) (qPos+1)
                      (Or.inr (by omega))]
                  rfl
                · rw [if_pos heq]
                  rfl
            | cons b qs2 =>
                obtain ⟨hgq, hdq2, hlq⟩ := drop_eq_cons_getD qry qPos b qs2 hdq
                rw [hgt, hgq]
                by_cases heq : a = b
                · rw [if_neg (fun hh => hh heq), Option.isSome_map',
                    ih (tPos+1) (qPos+1) (by omega) (by omega), hdt2, hdq2]
                  simp [transcriptThreads, heq]
                · rw [if_pos heq]
                  simp [transcriptThreads, heq]
      · by_cases hR : c = 'R'
        · subst hR
          rw [fromTranscriptGo_cons_R tgt qry cs tPos qPos hguard]
          cases hdt : tgt.drop tPos with
          | nil =>
              have ht : tgt.length ≤ tPos := List.drop_eq_nil_iff.mp hdt
              by_cases heq : tgt.getD tPos nulChar = qry.getD qPos nulChar
              · rw [if_pos heq]
                rfl
              · rw [if_neg heq,
                  fromTranscriptGo_none_of_out tgt qry cs (tPos+1) (qPos+1) (Or.inl (by omega))]
                rfl
          | cons a ts2 =>
              obtain ⟨hgt, hdt2, hlt⟩ := drop_eq_cons_getD tgt tPos a ts2 hdt
              cases hdq : qry.drop qPos with
              | nil =>
                  have hq2 : qry.length ≤ qPos := List.drop_eq_nil_iff.mp hdq
                  by_cases heq : tgt.getD tPos nulChar = qry.getD qPos nulChar
                  · rw [if_pos heq]
                    rfl
                  · rw [if_neg heq,
                      fromTranscriptGo_none_of_out tgt qry cs (tPos+1) (qPos+1)
                        (Or.inr (by omega))]
                    rfl
              | cons b qs2 =>
                  obtain ⟨hgq, hdq2, hlq⟩ := drop_eq_cons_getD qry qPos b qs2 hdq
                  rw [hgt, hgq]
                  by_cases heq : a = b
                  · rw [if_pos heq]
                    simp [transcriptThreads, heq]
                  · rw [if_neg heq, Option.isSome_map',
                      ih (tPos+1) (qPos+1) (by omega) (by omega), hdt2, hdq2]
                    simp [transcriptThreads, heq]
        · by_cases hI : c = 'I'
          · subst hI
            rw [fromTranscriptGo_cons_I tgt qry cs tPos qPos hguard]
            cases hdq : qry.drop qPos with
            | nil =>
                have hq2 : qry.length ≤ qPos := List.drop_eq_nil_iff.mp hdq
                rw [fromTranscriptGo_none_of_out tgt qry cs tPos (qPos+1) (Or.inr (by omega))]
                cases hdt : tgt.drop tPos with
                | nil => rfl
                | cons a ts2 => rfl
            | cons b qs2 =>
                obtain ⟨hgq, hdq2, hlq⟩ := drop_eq_cons_getD qry qPos b qs2 hdq
                rw [Option.isSome_map', ih tPos (qPos+1) (by omega) (by omega), hdq2]
                cases hdt : tgt.drop tPos with
                | nil => simp [transcriptThreads]
                | cons a ts2 => simp [transcriptThreads]
          · by_cases hD : c = 'D'
            · subst hD
              rw [fromTranscriptGo_cons_D tgt qry cs tPos qPos hguard]
              cases hdt : tgt.drop tPos with
              | nil =>
                  have ht : tgt.length ≤ tPos := List.drop_eq_nil_iff.mp hdt
                  rw [fromTranscriptGo_none_of_out tgt qry cs (tPos+1) qPos (Or.inl (by omega))]
                  cases hdq : qry.drop qPos with
                  | nil => rfl
                  | cons b qs2 => rfl
              | cons a ts2 =>
                  obtain ⟨hgt, hdt2, hlt⟩ := drop_eq_cons_getD tgt tPos a ts2 hdt
                  rw [Option.isSome_map', ih (tPos+1) qPos (by omega) (by omega), hdt2]
                  cases hdq : qry.drop qPos with
                  | nil => simp [transcriptThreads]
                  | cons b qs2 => simp [transcriptThreads]
            · rw [fromTranscriptGo_cons_other tgt qry cs c tPos qPos hM hR hI hD]
              have hrhs : transcriptThreads (c :: cs) (tgt.drop tPos) (qry.drop qPos) = false := by
                show (if c = 'M' then _ else if c = 'R' then _ else if c = 'I' then _
                  else if c = 'D' then _ else false) = false
                rw [if_neg hM, if_neg hR, if_neg hI, if_neg hD]
              rw [hrhs]
              rfl

theorem fromTranscriptGo_strip (tgt qry : List Char)
    (hgt : ∀ c ∈ tgt, c ≠ '-') (hgq : ∀ c ∈ qry, c ≠ '-') :
    ∀ (xs : List Char) (tPos qPos : Nat) (aT aQ : List Char),
      fromTranscriptGo tgt qry xs tPos qPos = some (aT, aQ) →
      tPos ≤ tgt.length → qPos ≤ qry.length →
      stripGaps aT = tgt.drop tPos ∧ stripGaps aQ = qry.drop qPos ∧
      aT.length = aQ.length ∧ ('-', '-') ∉ aT.zip aQ := by
  intro xs
  induction xs with
  | nil =>
      intro tPos qPos aT aQ h htl hql
      have h2 : (if tPos = tgt.length ∧ qPos = qry.length then
          some (([] : List Char), ([] : List Char)) else none) = some (aT, aQ) := h
      by_cases hc : tPos = tgt.length ∧ qPos = qry.length
      · rw [if_pos hc] at h2
        have h3 := Option.some.inj h2
        have haT : aT = [] := ((Prod.mk.injEq _ _ _ _).mp h3).1.symm
        have haQ : aQ = [] := ((Prod.mk.injEq _ _ _ _).mp h3).2.symm
        subst haT; subst haQ
        refine ⟨?_, ?_, rfl, by simp⟩
        · rw [List.drop_eq_nil_iff.mpr (le_of_eq hc.1.symm)]
          rfl
        · rw [List.drop_eq_nil_iff.mpr (le_of_eq hc.2.symm)]
          rfl
      · rw [if_neg hc] at h2
        exact absurd h2 (by simp)
  | cons c cs ih =>
      intro tPos qPos aT aQ h htl hql
      have hguard : ¬(tPos > tgt.length ∨ qPos > qry.length) := by omega
      by_cases hM : c = 'M'
      · subst hM
        rw [fromTranscriptGo_cons_M tgt qry cs tPos qPos hguard] at h
        by_cases heq : tgt.getD tPos nulChar = qry.getD qPos nulChar
        · rw [if_neg (fun hh => hh heq)] at h
          cases hin : fromTranscriptGo tgt qry cs (tPos+1) (qPos+1) with
          | none => rw [hin] at h; exact absurd h (by simp)
          | some r =>
              obtain ⟨rT, rQ⟩ := r
              rw [hin, Option.map_some'] at h
              have h3 := Option.some.inj h
              have hlt : tPos < tgt.length := by
                by_contra hcc
                push_neg at hcc
                rw [fromTranscriptGo_none_of_out tgt qry cs (tPos+1) (qPos+1)
                  (Or.inl (by omega))] at hin
                exact Option.noConfusion hin
              have hlq : qPos < qry.length := by
                by_contra hcc
                push_neg at hcc
                rw [fromTranscriptGo_none_of_out tgt qry cs (tPos+1) (qPos+1)
                  (Or.inr (by omega))] at hin
                exact Option.noConfusion hin
              obtain ⟨e1, e2, e3, e4⟩ := ih (tPos+1) (qPos+1) rT rQ hin (by omega) (by omega)
              have htne : tgt.getD tPos nulChar ≠ '-' := by
                rw [List.getD_eq_getElem tgt nulChar hlt]
                exact hgt _ (List.getElem_mem hlt)
              have hqne : qry.getD qPos nulChar ≠ '-' := by
                rw [List.getD_eq_getElem qry nulChar hlq]
                exact hgq _ (List.getElem_mem hlq)
              have haT : aT = tgt.getD tPos nulChar :: rT :=
                ((Prod.mk.injEq _ _ _ _).mp h3).1.symm
              have haQ : aQ = qry.getD qPos nulChar :: rQ :=
                ((Prod.mk.injEq _ _ _ _).mp h3).2.symm
              subst haT; subst haQ
              refine ⟨?_, ?_, by simp [e3], ?_⟩
              · rw [stripGaps_cons_keep _ _ htne, e1, List.getD_eq_getElem tgt nulChar hlt,
                  ← List.drop_eq_getElem_cons hlt]
              · rw [stripGaps_cons_keep _ _ hqne, e2, List.getD_eq_getElem qry nulChar hlq,
                  ← List.drop_eq_getElem_cons hlq]
              · intro hmem
                rw [List.zip_cons_cons] at hmem
                rcases List.mem_cons.mp hmem with he | hm
                · exact htne (congrArg Prod.fst he).symm
                · exact e4 hm
        · rw [if_pos heq] at h
          exact absurd h (by simp)
      · by_cases hR : c = 'R'
        · subst hR
          rw [fromTranscriptGo_cons_R tgt qry cs tPos qPos hguard] at h
          by_cases heq : tgt.getD tPos nulChar = qry.getD qPos nulChar
          · rw [if_pos heq] at h
            exact absurd h (by simp)
          · rw [if_neg heq] at h
            cases hin : fromTranscriptGo tgt qry cs (tPos+1) (qPos+1) with
            | none => rw [hin] at h; exact absurd h (by simp)
            | some r =>
                obtain ⟨rT, rQ⟩ := r
                rw [hin, Option.map_some'] at h
                have h3 := Option.some.inj h
                have hlt : tPos < tgt.length := by
                  by_contra hcc
                  push_neg at hcc
                  rw [fromTranscriptGo_none_of_out tgt qry cs (tPos+1) (qPos+1)
                    (Or.inl (by omega))] at hin
                  exact Option.noConfusion hin
                have hlq : qPos < qry.length := by
                  by_contra hcc
                  push_neg at hcc
                  rw [fromTranscriptGo_none_of_out tgt qry cs (tPos+1) (qPos+1)
                    (Or.inr (by omega))] at hin
                  exact Option.noConfusion hin
                obtain ⟨e1, e2, e3, e4⟩ := ih (tPos+1) (qPos+1) rT rQ hin (by omega) (by omega)
                have htne : tgt.getD tPos nulChar ≠ '-' := by
                  rw [List.getD_eq_getElem tgt nulChar hlt]
                  exact hgt _ (List.getElem_mem hlt)
                have hqne : qry.getD qPos nulChar ≠ '-' := by
                  rw [List.getD_eq_getElem qry nulChar hlq]
                  exact hgq _ (List.getElem_mem hlq)
                have haT : aT = tgt.getD tPos nulChar :: rT :=
                  ((Prod.mk.injEq _ _ _ _).mp h3).1.symm
                have haQ : aQ = qry.getD qPos nulChar :: rQ :=
                  ((Prod.mk.injEq _ _ _ _).mp h3).2.symm
                subst haT; subst haQ
                refine ⟨?_, ?_, by simp [e3], ?_⟩
                · rw [stripGaps_cons_keep _ _ htne, e1, List.getD_eq_getElem tgt nulChar hlt,
                    ← List.drop_eq_getElem_cons hlt]
                · rw [stripGaps_cons_keep _ _ hqne, e2, List.getD_eq_getElem qry nulChar hlq,
                    ← List.drop_eq_getElem_cons hlq]
                · intro hmem
                  rw [List.zip_cons_cons] at hmem
                  rcases List.mem_cons.mp hmem with he | hm
                  · exact htne (congrArg Prod.fst he).symm
                  · exact e4 hm
        · by_cases hI : c = 'I'
          · subst hI
            rw [fromTranscriptGo_cons_I tgt qry cs tPos qPos hguard] at h
            cases hin : fromTranscriptGo tgt qry cs tPos (qPos+1) with
            | none => rw [hin] at h; exact absurd h (by simp)
            | some r =>
                obtain ⟨rT, rQ⟩ := r
                rw [hin, Option.map_some'] at h
                have h3 := Option.some.inj h
                have hlq : qPos < qry.length := by
                  by_contra hcc
                  push_neg at hcc
                  rw [fromTranscriptGo_none_of_out tgt qry cs tPos (qPos+1)
                    (Or.inr (by omega))] at hin
                  exact Option.noConfusion hin
                obtain ⟨e1, e2, e3, e4⟩ := ih tPos (qPos+1) rT rQ hin (by omega) (by omega)
                have hqne : qry.getD qPos nulChar ≠ '-' := by
                  rw [List.getD_eq_getElem qry nulChar hlq]
                  exact hgq _ (List.getElem_mem hlq)
                have haT : aT = '-' :: rT := ((Prod.mk.injEq _ _ _ _).mp h3).1.symm
                have haQ : aQ = qry.getD qPos nulChar :: rQ :=
                  ((Prod.mk.injEq _ _ _ _).mp h3).2.symm
                subst haT; subst haQ
                refine ⟨?_, ?_, by simp [e3], ?_⟩
                · rw [stripGaps_cons_gap, e1]
                · rw [stripGaps_cons_keep _ _ hqne, e2, List.getD_eq_getElem qry nulChar hlq,
                    ← List.drop_eq_getElem_cons hlq]
                · intro hmem
                  rw [List.zip_cons_cons] at hmem
                  rcases List.mem_cons.mp hmem with he | hm
                  · exact hqne (congrArg Prod.snd he).symm
                  · exact e4 hm
          · by_cases hD : c = 'D'
            · subst hD
              rw [fromTranscriptGo_cons_D tgt qry cs tPos qPos hguard] at h
              cases hin : fromTranscriptGo tgt qry cs (tPos+1) qPos with
              | none => rw [hin] at h; exact absurd h (by simp)
              | some r =>
                  obtain ⟨rT, rQ⟩ := r
                  rw [hin, Option.map_some'] at h
                  have h3 := Option.some.inj h
                  have hlt : tPos < tgt.length := by
                    by_contra hcc
                    push_neg at hcc
                    rw [fromTranscriptGo_none_of_out tgt qry cs (tPos+1) qPos
                      (Or.inl (by omega))] at hin
                    exact Option.noConfusion hin
                  obtain ⟨e1, e2, e3, e4⟩ := ih (tPos+1) qPos rT rQ hin (by omega) (by omega)
                  have htne : tgt.getD tPos nulChar ≠ '-' := by
                    rw [List.getD_eq_getElem tgt nulChar hlt]
                    exact hgt _ (List.getElem_mem hlt)
                  have haT : aT = tgt.getD tPos nulChar :: rT :=
                    ((Prod.mk.injEq _ _ _ _).mp h3).1.symm
                  have haQ : aQ = '-' :: rQ := ((Prod.mk.injEq _ _ _ _).mp h3).2.symm
                  subst haT; subst haQ
                  refine ⟨?_, ?_, by simp [e3], ?_⟩
                  · rw [stripGaps_cons_keep _ _ htne, e1, List.getD_eq_getElem tgt nulChar hlt,
                      ← List.drop_eq_getElem_cons hlt]
                  · rw [stripGaps_cons_gap, e2]
                  · intro hmem
                    rw [List.zip_cons_cons] at hmem
                    rcases List.mem_cons.mp hmem with he | hm
                    · exact htne (congrArg Prod.fst he).symm
                    · exact e4 hm
            · rw [fromTranscriptGo_cons_other tgt qry cs c tPos qPos hM hR hI hD] at h
              exact absurd h (by simp)

/-- Counterexample to claim C8 as stated: on the gap-containing unaligned
query `"-"`, the transcript `"I"` does thread through the strings, yet
`FromTranscript` raises `InvalidInputError` (from the constructor's
`(-,-)`-column check) instead of returning an alignment — and an exception
is not the claimed null failure indicator. -/
theorem C8_counterexample :
    FromTranscript ['I'] [] ['-'] = .error .invalidInput ∧
    transcriptThreads ['I'] [] ['-'] = true := by
  decide

/-- Claim C8 as amended: for **gap-free** unaligned strings,
`FromTranscript` never throws, returns the null indicator exactly when the
transcript does not thread through the strings, and on success returns an
alignment whose gap-stripped sides are the inputs.  (Over arbitrary
strings the claim fails: see `C8_counterexample`.) -/
theorem C8_from_transcript_contract (x tgt qry : List Char)
    (hgt : ∀ c ∈ tgt, c ≠ '-') (hgq : ∀ c ∈ qry, c ≠ '-') :
    (FromTranscript x tgt qry = .ok none ↔ transcriptThreads x tgt qry = false) ∧
    (∀ e, FromTranscript x tgt qry ≠ .error e) ∧
    (∀ pa, FromTranscript x tgt qry = .ok (some pa) →
      stripGaps pa.target = tgt ∧ stripGaps pa.query = qry) := by
  have hiff := fromTranscriptGo_isSome_eq_threads tgt qry x 0 0 (by omega) (by omega)
  rw [List.drop_zero, List.drop_zero] at hiff
  cases hgo : fromTranscriptGo tgt qry x 0 0 with
  | none =>
      rw [hgo] at hiff
      have hth : transcriptThreads x tgt qry = false := by rw [← hiff]; rfl
      have hft : FromTranscript x tgt qry = .ok none := by
        unfold FromTranscript
        rw [hgo]
      refine ⟨⟨fun _ => hth, fun _ => hft⟩, ?_, ?_⟩
      · intro e hh
        rw [hft] at hh
        exact Except.noConfusion hh
      · intro pa hh
        rw [hft] at hh
        exact Option.noConfusion (Except.ok.inj hh)
  | some r =>
      obtain ⟨aT, aQ⟩ := r
      rw [hgo] at hiff
      have hth : transcriptThreads x tgt qry = true := by rw [← hiff]; rfl
      obtain ⟨e1, e2, e3, e4⟩ := fromTranscriptGo_strip tgt qry hgt hgq x 0 0 aT aQ hgo
        (by omega) (by omega)
      rw [List.drop_zero] at e1
      rw [List.drop_zero] at e2
      have hmkS : ∃ w, mkTranscript aT aQ = some w := by
        cases hmt : mkTranscript aT aQ with
        | some w => exact ⟨w, rfl⟩
        | none =>
            rcases (mkTranscript_eq_none_iff aT aQ).mp hmt with hb | hb
            · exact absurd e3 hb
            · exact absurd hb e4
      obtain ⟨w, hw⟩ := hmkS
      have hft : FromTranscript x tgt qry = .ok (some ⟨aT, aQ, w⟩) := by
        unfold FromTranscript
        rw [hgo]
        show Except.map some (mkPairwiseAlignment aT aQ) = _
        unfold mkPairwiseAlignment
        rw [hw]
        rfl
      refine ⟨⟨?_, ?_⟩, ?_, ?_⟩
      · intro hh
        rw [hft] at hh
        exact Option.noConfusion (Except.ok.inj hh)
      · intro hh
        rw [hth] at hh
        exact Bool.noConfusion hh
      · intro e hh
        rw [hft] at hh
        exact Except.noConfusion hh
      · intro pa hh
        rw [hft] at hh
        have hpa := Option.some.inj (Except.ok.inj hh)
        rw [← hpa]
        exact ⟨e1, e2⟩

/-- Witness for the amended C8 at a concrete input: the transcript `MRD`
threads through `("ACG", "AT")`, so no null indicator is returned, and the
rebuilt alignment strips back to the inputs. -/
theorem C8_from_transcript_contract_witness :
    FromTranscript "MRD".toList "ACG".toList "AT".toList ≠ .ok none ∧
    stripGaps "ACG".toList = "ACG".toList ∧
    stripGaps "AT-".toList = "AT".toList := by
  have h := C8_from_transcript_contract "MRD".toList "ACG".toList "AT".toList
    (by decide) (by decide)
  refine ⟨fun hh => ?_, ?_, ?_⟩
  · exact absurd (h.1.mp hh) (by decide)
  · exact (h.2.2 ⟨"ACG".toList, "AT-".toList, "MRD".toList⟩ (by decide)).1
  · exact (h.2.2 ⟨"ACG".toList, "AT-".toList, "MRD".toList⟩ (by decide)).2

/-! ### Claim C7: coordinate lifting (`TargetToQueryPositions`) -/

/-- `addsToTarget` (PairwiseAlignment.cpp lines 154-157). -/
def addsToTarget (c : Char) : Bool := c = 'M' || c = 'R' || c = 'D'

/-- `targetLength` (lines 159-162): number of target-consuming transcript
symbols. -/
def targetLength (transcript : List Char) : Nat := transcript.countP addsToTarget

/-- `addsToQuery` (lines 165-168). -/
def addsToQuery (c : Char) : Bool := c = 'M' || c = 'R' || c = 'I'

/-- `queryLength` (lines 170-173): number of query-consuming transcript
symbols. -/
def queryLength (transcript : List Char) : Nat := transcript.countP addsToQuery

/-- The loop of `TargetToQueryPositions` (lines 193-219), carrying the
running `queryPos`; `none` is the `ShouldNotReachHere()` on a symbol
outside `{M,R,I,D}`.  (The C++ also tracks `targetPos`, used only for the
`reserve` call and the trailing asserts.)  The terminal `push_back(queryPos)`
is the `[qPos]` in the nil case. -/
def targetToQueryPositionsGo : List Char → Nat → Option (List Nat)
  | [], qPos => some [qPos]
  | c :: rest, qPos =>
      if c = 'M' || c = 'R' then
        (targetToQueryPositionsGo rest (qPos+1)).map (fun l => qPos :: l)
      else if c = 'D' then
        (targetToQueryPositionsGo rest qPos).map (fun l => qPos :: l)
      else if c = 'I' then
        targetToQueryPositionsGo rest (qPos+1)
      else none

/-- `TargetToQueryPositions(transcript)`. -/
def TargetToQueryPositions (transcript : List Char) : Option (List Nat) :=
  targetToQueryPositionsGo transcript 0

theorem targetToQueryPositionsGo_props :
    ∀ (x : List Char) (qPos : Nat),
      (∀ c ∈ x, c = 'M' ∨ c = 'R' ∨ c = 'I' ∨ c = 'D') →
      ∃ p, targetToQueryPositionsGo x qPos = some p ∧
        p.length = targetLength x + 1 ∧
        p.getD (targetLength x) 0 = qPos + queryLength x ∧
        List.Chain' (· ≤ ·) p ∧ ∀ y ∈ p, qPos ≤ y := by
  intro x
  induction x with
  | nil =>
      intro qPos _
      refine ⟨[qPos], rfl, rfl, ?_, ?_, ?_⟩
      · show [qPos].getD 0 0 = qPos + 0
        simp [List.getD_cons_zero]
      · simp
      · intro y hy
        simp at hy
        omega
  | cons c rest ih =>
      intro qPos hval
      have hrest : ∀ d ∈ rest, d = 'M' ∨ d = 'R' ∨ d = 'I' ∨ d = 'D' :=
        fun d hd => hval d (List.mem_cons.mpr (Or.inr hd))
      rcases hval c (List.mem_cons.mpr (Or.inl rfl)) with hc | hc | hc | hc
      · -- M
        subst hc
        have ht : targetLength ('M' :: rest) = targetLength rest + 1 := by
          rw [targetLength, List.countP_cons, if_pos (by decide)]
          rfl
        have hq : queryLength ('M' :: rest) = queryLength rest + 1 := by
          rw [queryLength, List.countP_cons, if_pos (by decide)]
          rfl
        obtain ⟨p, hp, hl, hf, hch, hmem⟩ := ih (qPos+1) hrest
        refine ⟨qPos :: p, ?_, ?_, ?_, ?_, ?_⟩
        · show (if ('M' : Char) = 'M' || ('M' : Char) = 'R' then
            (targetToQueryPositionsGo rest (qPos+1)).map (fun l => qPos :: l) else _) = _
          rw [if_pos (by decide), hp]
          rfl
        · rw [List.length_cons, hl, ht]
        · rw [ht, hq, List.getD_cons_succ, hf]
          omega
        · rw [List.chain'_cons']
          refine ⟨fun y hy => ?_, hch⟩
          have := hmem y (List.mem_of_mem_head? hy)
          omega
        · intro y hy
          rcases List.mem_cons.mp hy with he | hm
          · omega
          · have := hmem y hm
            omega
      · -- R
        subst hc
        have ht : targetLength ('R' :: rest) = targetLength rest + 1 := by
          rw [targetLength, List.countP_cons, if_pos (by decide)]
          rfl
        have hq : queryLength ('R' :: rest) = queryLength rest + 1 := by
          rw [queryLength, List.countP_cons, if_pos (by decide)]
          rfl
        obtain ⟨p, hp, hl, hf, hch, hmem⟩ := ih (qPos+1) hrest
        refine ⟨qPos :: p, ?_, ?_, ?_, ?_, ?_⟩
        · show (if ('R' : Char) = 'M' || ('R' : Char) = 'R' then
            (targetToQueryPositionsGo rest (qPos+1)).map (fun l => qPos :: l) else _) = _
          rw [if_pos (by decide), hp]
          rfl
        · rw [List.length_cons, hl, ht]
        · rw [ht, hq, List.getD_cons_succ, hf]
          omega
        · rw [List.chain'_cons']
          refine ⟨fun y hy => ?_, hch⟩
          have := hmem y (List.mem_of_mem_head? hy)
          omega
        · intro y hy
          rcases List.mem_cons.mp hy with he | hm
          · omega
          · have := hmem y hm
            omega
      · -- I
        subst hc
        have ht : targetLength ('I' :: rest) = targetLength rest := by
          rw [targetLength, List.countP_cons, if_neg (by decide)]
          rfl
        have hq : queryLength ('I' :: rest) = queryLength rest + 1 := by
          rw [queryLength, List.countP_cons, if_pos (by decide)]
          rfl
        obtain ⟨p, hp, hl, hf, hch, hmem⟩ := ih (qPos+1) hrest
        refine ⟨p, ?_, ?_, ?_, hch, ?_⟩
        · show (if ('I' : Char) = 'M' || ('I' : Char) = 'R' then _
            else if ('I' : Char) = 'D' then _
            else if ('I' : Char) = 'I' then targetToQueryPositionsGo rest (qPos+1) else none) = _
          rw [if_neg (by decide), if_neg (by decide), if_pos (by decide), hp]
        · rw [hl, ht]
        · rw [ht, hq, hf]
          omega
        · intro y hy
          have := hmem y hy
          omega
      · -- D
        subst hc
        have ht : targetLength ('D' :: rest) = targetLength rest + 1 := by
          rw [targetLength, List.countP_cons, if_pos (by decide)]
          rfl
        have hq : queryLength ('D' :: rest) = queryLength rest := by
          rw [queryLength, List.countP_cons, if_neg (by decide)]
          rfl
        obtain ⟨p, hp, hl, hf, hch, hmem⟩ := ih qPos hrest
        refine ⟨qPos :: p, ?_, ?_, ?_, ?_, ?_⟩
        · show (if ('D' : Char) = 'M' || ('D' : Char) = 'R' then _
            else if ('D' : Char) = 'D' then
              (targetToQueryPositionsGo rest qPos).map (fun l => qPos :: l) else _) = _
          rw [if_neg (by decide), if_pos (by decide), hp]
          rfl
        · rw [List.length_cons, hl, ht]
        · rw [ht, hq, List.getD_cons_succ, hf]
        · rw [List.chain'_cons']
          refine ⟨fun y hy => ?_, hch⟩
          exact hmem y (List.mem_of_mem_head? hy)
        · intro y hy
          rcases List.mem_cons.mp hy with he | hm
          · omega
          · exact hmem y hm

/-- Claim C7: for a transcript over `{M,R,I,D}`,
`TargetToQueryPositions` returns a vector of length `targetLength + 1`
whose entry at `targetLength` is the query length and whose entries are
monotone non-decreasing. -/
theorem C7_target_to_query_positions (x : List Char)
    (hx : ∀ c ∈ x, c = 'M' ∨ c = 'R' ∨ c = 'I' ∨ c = 'D') :
    ∃ p, TargetToQueryPositions x = some p ∧
      p.length = targetLength x + 1 ∧
      p.getD (targetLength x) 0 = queryLength x ∧
      List.Chain' (· ≤ ·) p := by
  obtain ⟨p, hp, hl, hf, hch, _⟩ := targetToQueryPositionsGo_props x 0 hx
  exact ⟨p, hp, hl, by simpa using hf, hch⟩

/-- Witness for C7 at the transcript `MDIM` (one of the examples in the
source comment): the result is `[0, 1, 2, 3]`. -/
theorem C7_target_to_query_positions_witness :
    TargetToQueryPositions "MDIM".toList = some [0, 1, 2, 3] ∧
    ([0, 1, 2, 3] : List Nat).length = targetLength "MDIM".toList + 1 ∧
    ([0, 1, 2, 3] : List Nat).getD (targetLength "MDIM".toList) 0 = queryLength "MDIM".toList ∧
    List.Chain' (· ≤ ·) ([0, 1, 2, 3] : List Nat) := by
  obtain ⟨p, hp, hl, hf, hch⟩ := C7_target_to_query_positions "MDIM".toList (by decide)
  have hval : TargetToQueryPositions "MDIM".toList = some [0, 1, 2, 3] := by decide
  have he : p = [0, 1, 2, 3] := by
    rw [hval] at hp
    exact (Option.some.inj hp).symm
  subst he
  exact ⟨hval, hl, hf, hch⟩

/-! ### Claim C6: spanning-read tagging (`tagSpan`) -/

/-- `vertexInfoMap_[v].SpanningReads++` : bump one vertex's counter. -/
def bumpSpanning (counts : Nat → Nat) (v : Nat) : Nat → Nat :=
  fun w => if w = v then counts w + 1 else counts w

/-- The loop of `PoaGraphImpl::tagSpan` (PoaGraphTraversals.cpp lines
26-43) over the topologically sorted vertex list: set the flag at `start`,
break at `stop` (`end` in the C++), and increment `SpanningReads` while
the flag is set.  The topological order is an input here; the C++ computes
it with `boost::topological_sort`. -/
def tagSpanGo (start stop : Nat) : List Nat → Bool → (Nat → Nat) → (Nat → Nat)
  | [], _, counts => counts
  | v :: rest, spanning, counts =>
      let spanning2 := if v = start then true else spanning
      if v = stop then counts
      else tagSpanGo start stop rest spanning2
        (if spanning2 then bumpSpanning counts v else counts)

/-- `PoaGraphImpl::tagSpan(start, end)` acting on the spanning-read
counters. -/
def tagSpan (sortedVertices : List Nat) (start stop : Nat) (counts : Nat → Nat) :
    Nat → Nat :=
  tagSpanGo start stop sortedVertices false counts

theorem tagSpanGo_char (start stop : Nat) :
    ∀ (l : List Nat) (b : Bool) (counts : Nat → Nat) (v : Nat), l.Nodup →
      tagSpanGo start stop l b counts v =
        counts v + (if v ∈ l ∧ (b = true ∨ l.indexOf start ≤ l.indexOf v) ∧
          l.indexOf v < l.indexOf stop then 1 else 0) := by
  intro l
  induction l with
  | nil =>
      intro b counts v _
      simp [tagSpanGo]
  | cons w rest ih =>
      intro b counts v hnd
      have hndr : rest.Nodup := (List.nodup_cons.mp hnd).2
      have hwr : w ∉ rest := (List.nodup_cons.mp hnd).1
      show (if w = stop then counts
        else tagSpanGo start stop rest (if w = start then true else b)
          (if (if w = start then true else b) then bumpSpanning counts w else counts)) v = _
      by_cases hstop : w = stop
      · rw [if_pos hstop]
        have hidx : (w :: rest).indexOf stop = 0 := by
          rw [← hstop]
          exact List.indexOf_cons_self w rest
        rw [hidx]
        simp
      · rw [if_neg hstop]
        rw [ih (if w = start then true else b)
          (if (if w = start then true else b) then bumpSpanning counts w else counts) v hndr]
        have hstopidx : (w :: rest).indexOf stop = rest.indexOf stop + 1 :=
          List.indexOf_cons_ne rest hstop
        by_cases hvw : v = w
        · -- current vertex: counted exactly when the (updated) flag is set
          subst hvw
          have hvr : v ∉ rest := hwr
          have hnotmem : ¬(v ∈ rest ∧ ((if v = start then true else b) = true ∨
              rest.indexOf start ≤ rest.indexOf v) ∧ rest.indexOf v < rest.indexOf stop) :=
            fun hh => hvr hh.1
          rw [if_neg hnotmem]
          have hvidx : (v :: rest).indexOf v = 0 := List.indexOf_cons_self v rest
          have hcond : (v ∈ v :: rest ∧ (b = true ∨ (v :: rest).indexOf start ≤ (v :: rest).indexOf v) ∧
              (v :: rest).indexOf v < (v :: rest).indexOf stop) ↔
              ((if v = start then true else b) = true) := by
            rw [hvidx, hstopidx]
            constructor
            · intro ⟨_, h2, _⟩
              by_cases hs : v = start
              · rw [if_pos hs]
              · rw [if_neg hs]
                rcases h2 with hb | hle
                · exact hb
                · have hsi : (v :: rest).indexOf start = rest.indexOf start + 1 :=
                    List.indexOf_cons_ne rest hs
                  omega
            · intro hflag
              refine ⟨List.mem_cons_self v rest, ?_, by omega⟩
              by_cases hs : v = start
              · right
                rw [hs, List.indexOf_cons_self]
              · rw [if_neg hs] at hflag
                exact Or.inl hflag
          by_cases hflag : (if v = start then true else b) = true
          · rw [if_pos hflag, if_pos (hcond.mpr hflag)]
            simp [bumpSpanning]
          · rw [if_neg hflag, if_neg (fun hh => hflag (hcond.mp hh))]
        · -- other vertices: index shifts by one, bump does not touch them
          have hbv : ∀ c2 : Nat → Nat, (if (if w = start then true else b) = true
              then bumpSpanning counts w else counts) v = counts v := by
            intro _
            by_cases hf : (if w = start then true else b) = true
            · rw [if_pos hf]
              show (if v = w then counts v + 1 else counts v) = counts v
              rw [if_neg hvw]
            · rw [if_neg hf]
          rw [hbv counts]
          have hvidx : (w :: rest).indexOf v = rest.indexOf v + 1 :=
            List.indexOf_cons_ne rest (fun hh => hvw hh.symm)
          have hmemiff : v ∈ w :: rest ↔ v ∈ rest := by
            rw [List.mem_cons]
            exact ⟨fun h => h.resolve_left hvw, Or.inr⟩
          have hcond : (v ∈ w :: rest ∧ (b = true ∨ (w :: rest).indexOf start ≤ (w :: rest).indexOf v) ∧
              (w :: rest).indexOf v < (w :: rest).indexOf stop) ↔
              (v ∈ rest ∧ ((if w = start then true else b) = true ∨
                rest.indexOf start ≤ rest.indexOf v) ∧
                rest.indexOf v < rest.indexOf stop) := by
            rw [hvidx, hstopidx, hmemiff]
            by_cases hs : w = start
            · rw [if_pos hs]
              have hsi : (w :: rest).indexOf start = 0 := by
                rw [← hs]
                exact List.indexOf_cons_self w rest
              rw [hsi]
              constructor
              · intro ⟨h1, _, h3⟩
                exact ⟨h1, Or.inl rfl, by omega⟩
              · intro ⟨h1, _, h3⟩
                exact ⟨h1, Or.inr (by omega), by omega⟩
            · rw [if_neg hs]
              have hsi : (w :: rest).indexOf start = rest.indexOf start + 1 :=
                List.indexOf_cons_ne rest hs
              rw [hsi]
              constructor
              · intro ⟨h1, h2, h3⟩
                refine ⟨h1, ?_, by omega⟩
                rcases h2 with hb | hle
                · exact Or.inl hb
                · exact Or.inr (by omega)
              · intro ⟨h1, h2, h3⟩
                refine ⟨h1, ?_, by omega⟩
                rcases h2 with hb | hle
                · exact Or.inl hb
                · exact Or.inr (by omega)
          by_cases hfin : v ∈ rest ∧ ((if w = start then true else b) = true ∨
              rest.indexOf start ≤ rest.indexOf v) ∧ rest.indexOf v < rest.indexOf stop
          · rw [if_pos hfin, if_pos (hcond.mpr hfin)]
          · rw [if_neg hfin, if_neg (fun hh => hfin (hcond.mp hh))]

/-- Claim C6: `tagSpan` increments `SpanningReads` on exactly the vertices
of the topological order from `startSpan` (inclusive) up to `endSpan`
(exclusive); vertices before `startSpan`, and at or after `endSpan`, are
untouched. -/
theorem C6_tag_span (order : List Nat) (start stop : Nat) (counts : Nat → Nat)
    (hnd : order.Nodup) (v : Nat) :
    tagSpan order start stop counts v =
      counts v + (if v ∈ order ∧ order.indexOf start ≤ order.indexOf v ∧
        order.indexOf v < order.indexOf stop then 1 else 0) := by
  rw [tagSpan, tagSpanGo_char start stop order false counts v hnd]
  by_cases hc : v ∈ order ∧ order.indexOf start ≤ order.indexOf v ∧
      order.indexOf v < order.indexOf stop
  · rw [if_pos hc, if_pos ⟨hc.1, Or.inr hc.2.1, hc.2.2⟩]
  · have : ¬(v ∈ order ∧ ((false = true) ∨ order.indexOf start ≤ order.indexOf v) ∧
        order.indexOf v < order.indexOf stop) := by
      intro ⟨h1, h2, h3⟩
      rcases h2 with hb | hle
      · exact Bool.noConfusion hb
      · exact hc ⟨h1, hle, h3⟩
    rw [if_neg hc, if_neg this]

/-- Witness for C6 on the order `[0, 2, 3, 4, 1]` with span `(2, 4)`:
vertices 2 and 3 are incremented, 0, 4 and 1 are not. -/
theorem C6_tag_span_witness :
    tagSpan [0, 2, 3, 4, 1] 2 4 (fun _ => 0) 3 = 1 ∧
    tagSpan [0, 2, 3, 4, 1] 2 4 (fun _ => 0) 2 = 1 ∧
    tagSpan [0, 2, 3, 4, 1] 2 4 (fun _ => 0) 4 = 0 ∧
    tagSpan [0, 2, 3, 4, 1] 2 4 (fun _ => 0) 0 = 0 := by
  refine ⟨?_, ?_, ?_, ?_⟩
  · rw [C6_tag_span [0, 2, 3, 4, 1] 2 4 (fun _ => 0) (by decide) 3]
    decide
  · rw [C6_tag_span [0, 2, 3, 4, 1] 2 4 (fun _ => 0) (by decide) 2]
    decide
  · rw [C6_tag_span [0, 2, 3, 4, 1] 2 4 (fun _ => 0) (by decide) 4]
    decide
  · rw [C6_tag_span [0, 2, 3, 4, 1] 2 4 (fun _ => 0) (by decide) 0]
    decide

/-! ### Claim C1: mutation equivalence of the Integrator (spec-modelled) -/

/-- `MutationType` (the Integrator layer's implementation is not among the
sources; its tests are src/tests/TestEvaluator.cpp). -/
inductive MutationType where
  | INSERTION
  | DELETION
  | SUBSTITUTION
  deriving DecidableEq, Repr

/-- A single-base mutation: kind, zero-based position, and (for
insertion/substitution) the new base (spec section 3.5). -/
structure Mutation where
  kind : MutationType
  start : Nat
  base : Char
  deriving DecidableEq, Repr

/-- Modelled from the spec: single-mutation application on a template
string (spec section 4.3, "Mutation application semantics"; code missing
from the sources).  INSERTION at `p` inserts before index `p` (appending
when `p = |template|`), DELETION at `p` removes `template[p]`,
SUBSTITUTION at `p` replaces `template[p]`. -/
def applyMutation (tpl : List Char) (m : Mutation) : List Char :=
  match m.kind with
  | .INSERTION => tpl.take m.start ++ m.base :: tpl.drop m.start
  | .DELETION => tpl.take m.start ++ tpl.drop (m.start + 1)
  | .SUBSTITUTION => tpl.take m.start ++ m.base :: tpl.drop (m.start + 1)

/-- Insertion into a position-sorted mutation list. -/
def insertMutSorted (m : Mutation) : List Mutation → List Mutation
  | [] => [m]
  | x :: xs => if m.start ≤ x.start then m :: x :: xs else x :: insertMutSorted m xs

/-- Modelled from the spec: "Sort mutations by position" (spec section
4.3); insertion sort on the start position. -/
def sortMutations : List Mutation → List Mutation
  | [] => []
  | x :: xs => insertMutSorted x (sortMutations xs)

/-- Modelled from the spec: `ApplyMutations(template, &mutations)` — sort
by position (positions refer to the original template) and apply from the
end toward the beginning so earlier positions remain valid (spec section
4.3). -/
def ApplyMutations (tpl : List Char) (muts : List Mutation) : List Char :=
  (sortMutations muts).reverse.foldl applyMutation tpl

/-- Modelled from the spec: the Integrator's state — the current template
and the collection of added reads (spec section 3.7).  The per-read
forward/backward matrices and the trained model tables are opaque data per
the spec, so the scalar log-likelihood they produce is abstracted as a
function `ll : template → reads → ℚ` supplied to `LL`/`LLMut` below. -/
structure Integrator where
  tpl : List Char
  reads : List (List Char)
  deriving DecidableEq, Repr

/-- `AddRead`. -/
def Integrator.AddRead (ai : Integrator) (read : List Char) : Integrator :=
  { ai with reads := ai.reads ++ [read] }

/-- Modelled from the spec: `LL()` — the log-likelihood of the added reads
under the current template. -/
def Integrator.LL (ll : List Char → List (List Char) → ℚ) (ai : Integrator) : ℚ :=
  ll ai.tpl ai.reads

/-- Modelled from the spec: `LL(mut)` "must return the log-likelihood that
would result from applying `mut` to the current template — without
permanently mutating state" (spec section 4.3).  In this pure embedding
`LLMut` is a function of the unchanged integrator value, so state
immutability is intrinsic. -/
def Integrator.LLMut (ll : List Char → List (List Char) → ℚ) (ai : Integrator)
    (m : Mutation) : ℚ :=
  ll (ApplyMutations ai.tpl [m]) ai.reads

/-- Modelled from the spec: `ApplyMutations` on the integrator mutates the
template in place; afterwards `LL()` matches a fresh build on the new
template (spec section 4.3). -/
def Integrator.ApplyMuts (ai : Integrator) (muts : List Mutation) : Integrator :=
  { ai with tpl := ApplyMutations ai.tpl muts }

/-- Claim C1 (spec-modelled): for every template `T`, single mutation `m`
and read `R`, the integrator's fast mutation score agrees with the
fresh-build likelihood — here exactly, hence within the claimed `1e-3`
tolerance — both for `LL(m)` and for `LL()` after `ApplyMutations([m])`;
and `LL(mut)` leaves the integrator's template untouched. -/
theorem C1_mutation_equivalence (ll : List Char → List (List Char) → ℚ)
    (T : List Char) (m : Mutation) (R : List Char) :
    |Integrator.LLMut ll (Integrator.AddRead ⟨T, []⟩ R) m -
      Integrator.LL ll (Integrator.AddRead ⟨ApplyMutations T [m], []⟩ R)| < 1/1000 ∧
    |Integrator.LL ll ((Integrator.AddRead ⟨T, []⟩ R).ApplyMuts [m]) -
      Integrator.LL ll (Integrator.AddRead ⟨ApplyMutations T [m], []⟩ R)| < 1/1000 ∧
    Integrator.LLMut ll (Integrator.AddRead ⟨T, []⟩ R) m =
      Integrator.LL ll ((Integrator.AddRead ⟨T, []⟩ R).ApplyMuts [m]) ∧
    (Integrator.AddRead ⟨T, []⟩ R).tpl = T := by
  have h1 : Integrator.LLMut ll (Integrator.AddRead ⟨T, []⟩ R) m =
      Integrator.LL ll (Integrator.AddRead ⟨ApplyMutations T [m], []⟩ R) := rfl
  have h2 : Integrator.LL ll ((Integrator.AddRead ⟨T, []⟩ R).ApplyMuts [m]) =
      Integrator.LL ll (Integrator.AddRead ⟨ApplyMutations T [m], []⟩ R) := rfl
  refine ⟨?_, ?_, rfl, rfl⟩
  · rw [h1]
    simp
  · rw [h2]
    simp

/-! ### Claim C5: the consensus-path dynamic program -/

/-- The per-vertex score of `consensusPath` (PoaGraphTraversals.cpp lines
80-83): `2·reads − max(spanning, minCoverage) − 0.0001` for non-GLOBAL
modes, `2·reads − totalReads − 0.0001` for GLOBAL.  The C++ float
`0.0001f` tie-breaker is embedded as the rational `1/10000`; every claim in
scope concerns the comparison structure, not float rounding. -/
def nodeScore (mode : AlignMode) (minCoverage totalReads reads spanning : Nat) : ℚ :=
  if mode ≠ AlignMode.GLOBAL then
    2 * (reads : ℚ) - ((max spanning minCoverage : Nat) : ℚ) - 1/10000
  else
    2 * (reads : ℚ) - (totalReads : ℚ) - 1/10000

/-- The running state of the `consensusPath` loop: the `ReachingScore`
property map, the `bestPrevVertex` map, and the
`(bestVertex, bestReachingScore)` pair (`none` standing for
`(null_vertex, -FLT_MAX)`). -/
structure CPState where
  rs : Nat → ℚ
  bestPrev : Nat → Option Nat
  best : Option (Nat × ℚ)

/-- Point update of a score map. -/
def updateRS (f : Nat → ℚ) (v : Nat) (x : ℚ) : Nat → ℚ :=
  fun w => if w = v then x else f w

/-- Point update of the best-predecessor map. -/
def updateBP (f : Nat → Option Nat) (v : Nat) (x : Option Nat) : Nat → Option Nat :=
  fun w => if w = v then x else f w

/-- The first `if` of the inner `foreach (ED e, inEdges(v, g_))` loop
(PoaGraphTraversals.cpp lines 90-93): replace `ReachingScore(v)` and
`bestPrev(v)` when the relaxation `score + ReachingScore(u)` is strictly
better. -/
def relaxRS (score : ℚ) (v u : Nat) (st : CPState) : CPState :=
  if score + st.rs u > st.rs v then
    { st with
      rs := updateRS st.rs v (score + st.rs u)
      bestPrev := updateBP st.bestPrev v (some u) }
  else st

/-- The second `if` of the inner loop (lines 94-97): replace the global
`(bestVertex, bestReachingScore)` pair when `rsc` is strictly better
(`none` is the initial `(null_vertex, -FLT_MAX)`, which any value beats). -/
def relaxBest (v : Nat) (rsc : ℚ) (st : CPState) : CPState :=
  match st.best with
  | none => { st with best := some (v, rsc) }
  | some (w, b) => if rsc > b then { st with best := some (v, rsc) } else { st with best := some (w, b) }

/-- The body of the inner loop (lines 87-98): both updates, with
`rsc = score + ReachingScore(u)` computed once from the incoming state. -/
def relaxEdge (score : ℚ) (v : Nat) (st : CPState) (u : Nat) : CPState :=
  relaxBest v (score + st.rs u) (relaxRS score v u st)

/-- One iteration of the outer `foreach (VD v, sortedVertices)` loop
(lines 76-99): compute the vertex score, initialise `ReachingScore` with
it and `bestPrev` with null, then relax all in-edges. -/
def processVertex (mode : AlignMode) (minCoverage totalReads : Nat)
    (readsOf spanningOf : Nat → Nat) (inEdges : Nat → List Nat)
    (st : CPState) (v : Nat) : CPState :=
  let score := nodeScore mode minCoverage totalReads (readsOf v) (spanningOf v)
  let st1 : CPState :=
    { st with rs := updateRS st.rs v score, bestPrev := updateBP st.bestPrev v none }
  (inEdges v).foldl (relaxEdge score v) st1

/-- The dynamic program of `PoaGraphImpl::consensusPath` (lines 61-99):
the reaching score of the first vertex of the topological order (`enter`)
is set to 0, the first and last vertices (`^` and `$`) are dropped, and
every remaining vertex is processed in order.  The topological order and
the per-vertex in-edge lists are inputs; the C++ obtains them from
`boost::topological_sort` and `inEdges(v, g_)`. -/
def consensusDP (mode : AlignMode) (minCoverage totalReads : Nat)
    (readsOf spanningOf : Nat → Nat) (inEdges : Nat → List Nat)
    (sortedVertices : List Nat) : CPState :=
  let st0 : CPState :=
    { rs := updateRS (fun _ => 0) (sortedVertices.headD 0) 0,
      bestPrev := fun _ => none, best := none }
  ((sortedVertices.drop 1).dropLast).foldl
    (processVertex mode minCoverage totalReads readsOf spanningOf inEdges) st0

/-- The traceback of `consensusPath` (lines 102-108): walk `bestPrev` from
the best vertex, prepending along the way (fuel bounds the walk; the C++
relies on the maps being acyclic). -/
def cpTraceback (bestPrev : Nat → Option Nat) : Nat → Nat → List Nat
  | 0, v => [v]
  | fuel+1, v =>
      match bestPrev v with
      | none => [v]
      | some u => cpTraceback bestPrev fuel u ++ [v]

/-- `PoaGraphImpl::consensusPath` (lines 45-109), as a function of the
graph data: the produced vertex path.  An empty result stands for the
asserted-unreachable `bestVertex == null_vertex` case. -/
def consensusPath (mode : AlignMode) (minCoverage totalReads : Nat)
    (readsOf spanningOf : Nat → Nat) (inEdges : Nat → List Nat)
    (sortedVertices : List Nat) : List Nat :=
  let st := consensusDP mode minCoverage totalReads readsOf spanningOf inEdges sortedVertices
  match st.best with
  | none => []
  | some (v, _) => cpTraceback st.bestPrev sortedVertices.length v

/-- Concrete POA graph refuting claim C5 as stated: vertices
`^ = 0, $ = 1`, a chain `0 → 2 → 3 → 1` with 2 reads on each of 2 and 3,
and a chain `0 → 4 → 5 → 1` with 1 read on 4 and 3 reads on 5;
3 total reads, GLOBAL mode. -/
def cexReads : Nat → Nat := fun v =>
  if v = 2 then 2 else if v = 3 then 2 else if v = 4 then 1 else if v = 5 then 3 else 0

/-- In-edge source lists of the counterexample graph. -/
def cexInEdges : Nat → List Nat := fun v =>
  if v = 2 then [0] else if v = 3 then [2] else if v = 4 then [0]
  else if v = 5 then [4] else if v = 1 then [3, 5] else []

/-- A topological order of the counterexample graph. -/
def cexSorted : List Nat := [0, 2, 3, 4, 5, 1]

/-- The DP state reached on the counterexample graph. -/
def cexDP : CPState :=
  consensusDP AlignMode.GLOBAL 0 3 cexReads (fun _ => 0) cexInEdges cexSorted

/-- Counterexample to claim C5 as stated: on the graph above, vertex 5
(whose only predecessor is vertex 4) gets
`ReachingScore(5) = score(5) ≠ score(5) + ReachingScore(4)` because the
code only replaces the initial `score(5)` when an edge relaxation is
strictly better; and the traceback starts at vertex 3 even though vertex 5
has the strictly highest reaching score, because `bestVertex` tracks the
best edge-relaxation value `score(v) + ReachingScore(u)`, not the best
final reaching score. -/
theorem C5_counterexample :
    cexDP.rs 5 ≠
      nodeScore AlignMode.GLOBAL 0 3 (cexReads 5) 0 + cexDP.rs 4 ∧
    cexDP.best = some (3, cexDP.rs 3) ∧
    cexDP.rs 3 < cexDP.rs 5 ∧
    consensusPath AlignMode.GLOBAL 0 3 cexReads (fun _ => 0) cexInEdges cexSorted = [2, 3] := by
  have h5 : cexDP.rs 5 = 3 - 1/10000 := by
    norm_num [cexDP, consensusDP, processVertex, relaxEdge, relaxRS, relaxBest, nodeScore,
      cexReads, cexInEdges, cexSorted, updateRS, updateBP]
  have h4 : cexDP.rs 4 = -1 - 1/10000 := by
    norm_num [cexDP, consensusDP, processVertex, relaxEdge, relaxRS, relaxBest, nodeScore,
      cexReads, cexInEdges, cexSorted, updateRS, updateBP]
  have h3 : cexDP.rs 3 = 2 - 2/10000 := by
    norm_num [cexDP, consensusDP, processVertex, relaxEdge, relaxRS, relaxBest, nodeScore,
      cexReads, cexInEdges, cexSorted, updateRS, updateBP]
  have hbest : cexDP.best = some (3, 2 - 2/10000) := by
    norm_num [cexDP, consensusDP, processVertex, relaxEdge, relaxRS, relaxBest, nodeScore,
      cexReads, cexInEdges, cexSorted, updateRS, updateBP]
  refine ⟨?_, ?_, ?_, ?_⟩
  · rw [h5, h4]
    norm_num [nodeScore, cexReads]
  · rw [hbest, h3]
  · rw [h3, h5]
    norm_num
  · norm_num [consensusPath, consensusDP, processVertex, relaxEdge, relaxRS, relaxBest,
      nodeScore, cexReads, cexInEdges, cexSorted, updateRS, updateBP, cpTraceback]

/-! #### Properties of the consensus DP fold -/

theorem relaxBest_rs (v : Nat) (r : ℚ) (st : CPState) : (relaxBest v r st).rs = st.rs := by
  cases hb : st.best with
  | none => simp [relaxBest, hb]
  | some p =>
      obtain ⟨w, b⟩ := p
      by_cases h : r > b
      · simp [relaxBest, hb, h]
      · simp [relaxBest, hb, h]

theorem relaxBest_bestPrev (v : Nat) (r : ℚ) (st : CPState) :
    (relaxBest v r st).bestPrev = st.bestPrev := by
  cases hb : st.best with
  | none => simp [relaxBest, hb]
  | some p =>
      obtain ⟨w, b⟩ := p
      by_cases h : r > b
      · simp [relaxBest, hb, h]
      · simp [relaxBest, hb, h]

theorem relaxBest_ge (v : Nat) (r : ℚ) (st : CPState) :
    ∃ p, (relaxBest v r st).best = some p ∧ r ≤ p.2 := by
  cases hb : st.best with
  | none => exact ⟨(v, r), by simp [relaxBest, hb], le_refl r⟩
  | some p =>
      obtain ⟨w, b⟩ := p
      by_cases h : r > b
      · exact ⟨(v, r), by simp [relaxBest, hb, h], le_refl r⟩
      · exact ⟨(w, b), by simp [relaxBest, hb, h], not_lt.mp h⟩

theorem relaxBest_mono (v : Nat) (r : ℚ) (st : CPState) (w : Nat) (b : ℚ)
    (hb : st.best = some (w, b)) :
    ∃ p, (relaxBest v r st).best = some p ∧ b ≤ p.2 := by
  by_cases h : r > b
  · exact ⟨(v, r), by simp [relaxBest, hb, h], le_of_lt h⟩
  · exact ⟨(w, b), by simp [relaxBest, hb, h], le_refl b⟩

theorem relaxBest_attained (v : Nat) (r : ℚ) (st : CPState) :
    (relaxBest v r st).best = st.best ∨ (relaxBest v r st).best = some (v, r) := by
  cases hb : st.best with
  | none => right; simp [relaxBest, hb]
  | some p =>
      obtain ⟨w, b⟩ := p
      by_cases h : r > b
      · right
        simp [relaxBest, hb, h]
      · left
        simp [relaxBest, hb, h]

theorem relaxRS_best (score : ℚ) (v u : Nat) (st : CPState) :
    (relaxRS score v u st).best = st.best := by
  unfold relaxRS
  by_cases h : score + st.rs u > st.rs v
  · rw [if_pos h]
  · rw [if_neg h]

theorem relaxRS_rs_other (score : ℚ) (v u w : Nat) (st : CPState) (hw : w ≠ v) :
    (relaxRS score v u st).rs w = st.rs w := by
  unfold relaxRS
  by_cases h : score + st.rs u > st.rs v
  · rw [if_pos h]
    show updateRS st.rs v (score + st.rs u) w = st.rs w
    rw [updateRS, if_neg hw]
  · rw [if_neg h]

theorem relaxRS_rs_self (score : ℚ) (v u : Nat) (st : CPState) :
    (relaxRS score v u st).rs v = max (st.rs v) (score + st.rs u) := by
  unfold relaxRS
  by_cases h : score + st.rs u > st.rs v
  · rw [if_pos h]
    show updateRS st.rs v (score + st.rs u) v = _
    rw [updateRS, if_pos rfl, max_eq_right (le_of_lt h)]
  · rw [if_neg h, max_eq_left (not_lt.mp h)]

theorem relaxEdge_rs_other (score : ℚ) (v : Nat) (st : CPState) (u w : Nat) (hw : w ≠ v) :
    (relaxEdge score v st u).rs w = st.rs w := by
  unfold relaxEdge
  rw [relaxBest_rs]
  exact relaxRS_rs_other score v u w st hw

theorem relaxEdge_rs_self (score : ℚ) (v : Nat) (st : CPState) (u : Nat) :
    (relaxEdge score v st u).rs v = max (st.rs v) (score + st.rs u) := by
  unfold relaxEdge
  rw [relaxBest_rs]
  exact relaxRS_rs_self score v u st

theorem relaxFold_rs_other (score : ℚ) (v : Nat) :
    ∀ (es : List Nat) (st : CPState) (w : Nat), w ≠ v →
      ((es.foldl (relaxEdge score v) st).rs) w = st.rs w := by
  intro es
  induction es with
  | nil => intro st w _; rfl
  | cons u es ih =>
      intro st w hw
      show ((es.foldl (relaxEdge score v) (relaxEdge score v st u)).rs) w = st.rs w
      rw [ih (relaxEdge score v st u) w hw]
      exact relaxEdge_rs_other score v st u w hw

theorem relaxFold_rs_self (score : ℚ) (v : Nat) :
    ∀ (es : List Nat) (st : CPState), (∀ u ∈ es, u ≠ v) →
      ((es.foldl (relaxEdge score v) st).rs) v =
        es.foldl (fun acc u => max acc (score + st.rs u)) (st.rs v) := by
  intro es
  induction es with
  | nil => intro st _; rfl
  | cons u es ih =>
      intro st hne
      have hu : u ≠ v := hne u (List.mem_cons.mpr (Or.inl rfl))
      have hne2 : ∀ x ∈ es, x ≠ v := fun x hx => hne x (List.mem_cons.mpr (Or.inr hx))
      show ((es.foldl (relaxEdge score v) (relaxEdge score v st u)).rs) v = _
      rw [ih (relaxEdge score v st u) hne2]
      have hcong : es.foldl (fun acc x => max acc (score + (relaxEdge score v st u).rs x))
          ((relaxEdge score v st u).rs v) =
          es.foldl (fun acc x => max acc (score + st.rs x)) ((relaxEdge score v st u).rs v) := by
        apply List.foldl_ext
        intro acc x hx
        rw [relaxEdge_rs_other score v st u x (hne2 x hx)]
      rw [hcong, relaxEdge_rs_self score v st u]
      rfl

theorem relaxFold_best_mono (score : ℚ) (v : Nat) :
    ∀ (es : List Nat) (st : CPState) (w : Nat) (b : ℚ), st.best = some (w, b) →
      ∃ p, ((es.foldl (relaxEdge score v) st).best) = some p ∧ b ≤ p.2 := by
  intro es
  induction es with
  | nil =>
      intro st w b hb
      exact ⟨(w, b), hb, le_refl b⟩
  | cons u es ih =>
      intro st w b hb
      have hb1 : (relaxRS score v u st).best = some (w, b) := by rw [relaxRS_best, hb]
      obtain ⟨p1, hp1, hle1⟩ := relaxBest_mono v (score + st.rs u) (relaxRS score v u st) w b hb1
      obtain ⟨p2, hp2, hle2⟩ := ih (relaxEdge score v st u) p1.1 p1.2 (by
        show (relaxEdge score v st u).best = some (p1.1, p1.2)
        rw [show (p1.1, p1.2) = p1 from rfl]
        exact hp1)
      exact ⟨p2, hp2, le_trans hle1 hle2⟩

theorem relaxFold_best_ge (score : ℚ) (v : Nat) :
    ∀ (es : List Nat) (st : CPState), (∀ x ∈ es, x ≠ v) → ∀ u ∈ es,
      ∃ p, ((es.foldl (relaxEdge score v) st).best) = some p ∧ score + st.rs u ≤ p.2 := by
  intro es
  induction es with
  | nil =>
      intro st _ u hu
      simp at hu
  | cons u0 es ih =>
      intro st hne u hu
      have hne2 : ∀ x ∈ es, x ≠ v := fun x hx => hne x (List.mem_cons.mpr (Or.inr hx))
      rcases List.mem_cons.mp hu with he | hm
      · subst he
        obtain ⟨p1, hp1, hle1⟩ := relaxBest_ge v (score + st.rs u) (relaxRS score v u st)
        obtain ⟨p2, hp2, hle2⟩ := relaxFold_best_mono score v es (relaxEdge score v st u)
          p1.1 p1.2 (by
            show (relaxEdge score v st u).best = some (p1.1, p1.2)
            rw [show (p1.1, p1.2) = p1 from rfl]
            exact hp1)
        exact ⟨p2, hp2, le_trans hle1 hle2⟩
      · have hx : (relaxEdge score v st u0).rs u = st.rs u :=
          relaxEdge_rs_other score v st u0 u (hne2 u hm)
        obtain ⟨p, hp, hle⟩ := ih (relaxEdge score v st u0) hne2 u hm
        rw [hx] at hle
        exact ⟨p, hp, hle⟩

theorem relaxFold_best_attained (score : ℚ) (v : Nat) :
    ∀ (es : List Nat) (st : CPState), (∀ x ∈ es, x ≠ v) →
      ((es.foldl (relaxEdge score v) st).best = st.best ∨
        ∃ u ∈ es, (es.foldl (relaxEdge score v) st).best = some (v, score + st.rs u)) := by
  intro es
  induction es with
  | nil =>
      intro st _
      exact Or.inl rfl
  | cons u0 es ih =>
      intro st hne
      have hne2 : ∀ x ∈ es, x ≠ v := fun x hx => hne x (List.mem_cons.mpr (Or.inr hx))
      have hstep : (relaxEdge score v st u0).best = st.best ∨
          (relaxEdge score v st u0).best = some (v, score + st.rs u0) := by
        unfold relaxEdge
        rcases relaxBest_attained v (score + st.rs u0) (relaxRS score v u0 st) with h | h
        · left
          rw [h, relaxRS_best]
        · right
          exact h
      rcases ih (relaxEdge score v st u0) hne2 with hall | ⟨u, hu, hsome⟩
      · rw [List.foldl_cons]
        rcases hstep with h1 | h1
        · left
          rw [hall, h1]
        · right
          exact ⟨u0, List.mem_cons.mpr (Or.inl rfl), by rw [hall, h1]⟩
      · right
        refine ⟨u, List.mem_cons.mpr (Or.inr hu), ?_⟩
        rw [List.foldl_cons, hsome, relaxEdge_rs_other score v st u0 u (hne2 u hu)]

theorem foldl_max_add (s : ℚ) :
    ∀ (l : List ℚ) (a : ℚ),
      l.foldl (fun acc x => max acc (s + x)) (s + a) = s + l.foldl max a := by
  intro l
  induction l with
  | nil => intro a; rfl
  | cons x xs ih =>
      intro a
      show xs.foldl (fun acc y => max acc (s + y)) (max (s + a) (s + x)) =
        s + xs.foldl max (max a x)
      rw [max_add_add_left s a x]
      exact ih (max a x)

theorem processVertex_rs_other (mode : AlignMode) (minCoverage totalReads : Nat)
    (readsOf spanningOf : Nat → Nat) (inEdges : Nat → List Nat)
    (st : CPState) (v w : Nat) (hw : w ≠ v) :
    (processVertex mode minCoverage totalReads readsOf spanningOf inEdges st v).rs w =
      st.rs w := by
  unfold processVertex
  rw [relaxFold_rs_other _ _ _ _ w hw]
  show updateRS st.rs v _ w = st.rs w
  rw [updateRS, if_neg hw]

theorem processVertex_rs_self (mode : AlignMode) (minCoverage totalReads : Nat)
    (readsOf spanningOf : Nat → Nat) (inEdges : Nat → List Nat)
    (st : CPState) (v : Nat) (hne : ∀ u ∈ inEdges v, u ≠ v) :
    (processVertex mode minCoverage totalReads readsOf spanningOf inEdges st v).rs v =
      nodeScore mode minCoverage totalReads (readsOf v) (spanningOf v) +
        ((inEdges v).map st.rs).foldl max 0 := by
  unfold processVertex
  set score := nodeScore mode minCoverage totalReads (readsOf v) (spanningOf v) with hscore
  set st1 : CPState :=
    { st with rs := updateRS st.rs v score, bestPrev := updateBP st.bestPrev v none } with hst1
  rw [relaxFold_rs_self score v (inEdges v) st1 hne]
  have h1 : st1.rs v = score := by
    show updateRS st.rs v score v = score
    rw [updateRS, if_pos rfl]
  have hcong : (inEdges v).foldl (fun acc u => max acc (score + st1.rs u)) (st1.rs v) =
      (inEdges v).foldl (fun acc u => max acc (score + st.rs u)) (score + 0) := by
    rw [h1]
    have : score = score + 0 := by ring
    rw [← this]
    apply List.foldl_ext
    intro acc u hu
    have : st1.rs u = st.rs u := by
      show updateRS st.rs v score u = st.rs u
      rw [updateRS, if_neg (hne u hu)]
    rw [this]
  rw [hcong, ← List.foldl_map st.rs (fun acc x => max acc (score + x)), foldl_max_add]

theorem processVertex_best_mono (mode : AlignMode) (minCoverage totalReads : Nat)
    (readsOf spanningOf : Nat → Nat) (inEdges : Nat → List Nat)
    (st : CPState) (v w : Nat) (b : ℚ) (hb : st.best = some (w, b)) :
    ∃ p, (processVertex mode minCoverage totalReads readsOf spanningOf inEdges st v).best =
      some p ∧ b ≤ p.2 := by
  unfold processVertex
  exact relaxFold_best_mono _ v (inEdges v) _ w b hb

theorem processVertex_best_ge (mode : AlignMode) (minCoverage totalReads : Nat)
    (readsOf spanningOf : Nat → Nat) (inEdges : Nat → List Nat)
    (st : CPState) (v : Nat) (hne : ∀ u ∈ inEdges v, u ≠ v) (u : Nat) (hu : u ∈ inEdges v) :
    ∃ p, (processVertex mode minCoverage totalReads readsOf spanningOf inEdges st v).best =
      some p ∧ nodeScore mode minCoverage totalReads (readsOf v) (spanningOf v) +
        st.rs u ≤ p.2 := by
  unfold processVertex
  set score := nodeScore mode minCoverage totalReads (readsOf v) (spanningOf v) with hscore
  set st1 : CPState :=
    { st with rs := updateRS st.rs v score, bestPrev := updateBP st.bestPrev v none } with hst1
  obtain ⟨p, hp, hle⟩ := relaxFold_best_ge score v (inEdges v) st1 hne u hu
  have : st1.rs u = st.rs u := by
    show updateRS st.rs v score u = st.rs u
    rw [updateRS, if_neg (hne u hu)]
  rw [this] at hle
  exact ⟨p, hp, hle⟩

theorem processVertex_best_attained (mode : AlignMode) (minCoverage totalReads : Nat)
    (readsOf spanningOf : Nat → Nat) (inEdges : Nat → List Nat)
    (st : CPState) (v : Nat) (hne : ∀ u ∈ inEdges v, u ≠ v) :
    (processVertex mode minCoverage totalReads readsOf spanningOf inEdges st v).best =
      st.best ∨
    ∃ u ∈ inEdges v, (processVertex mode minCoverage totalReads readsOf spanningOf
      inEdges st v).best = some (v,
        nodeScore mode minCoverage totalReads (readsOf v) (spanningOf v) + st.rs u) := by
  unfold processVertex
  set score := nodeScore mode minCoverage totalReads (readsOf v) (spanningOf v) with hscore
  set st1 : CPState :=
    { st with rs := updateRS st.rs v score, bestPrev := updateBP st.bestPrev v none } with hst1
  have hbest1 : st1.best = st.best := rfl
  rcases relaxFold_best_attained score v (inEdges v) st1 hne with h | ⟨u, hu, h⟩
  · left
    rw [h, hbest1]
  · right
    refine ⟨u, hu, ?_⟩
    have : st1.rs u = st.rs u := by
      show updateRS st.rs v score u = st.rs u
      rw [updateRS, if_neg (hne u hu)]
    rw [h, this]

theorem consensusFold_props (mode : AlignMode) (minCoverage totalReads : Nat)
    (readsOf spanningOf : Nat → Nat) (inEdges : Nat → List Nat) :
    ∀ (todo : List Nat) (st : CPState), todo.Nodup →
      todo.Pairwise (fun a b => b ∉ inEdges a) →
      (∀ v ∈ todo, v ∉ inEdges v) →
      (∀ w, w ∉ todo →
        (todo.foldl (processVertex mode minCoverage totalReads readsOf spanningOf inEdges)
          st).rs w = st.rs w) ∧
      (∀ v ∈ todo,
        (todo.foldl (processVertex mode minCoverage totalReads readsOf spanningOf inEdges)
          st).rs v =
          nodeScore mode minCoverage totalReads (readsOf v) (spanningOf v) +
            ((inEdges v).map
              (todo.foldl (processVertex mode minCoverage totalReads readsOf spanningOf
                inEdges) st).rs).foldl max 0) ∧
      (∀ v ∈ todo, ∀ u ∈ inEdges v, ∃ p,
        (todo.foldl (processVertex mode minCoverage totalReads readsOf spanningOf inEdges)
          st).best = some p ∧
        nodeScore mode minCoverage totalReads (readsOf v) (spanningOf v) +
          (todo.foldl (processVertex mode minCoverage totalReads readsOf spanningOf inEdges)
            st).rs u ≤ p.2) ∧
      (∀ w r, st.best = some (w, r) → ∃ p,
        (todo.foldl (processVertex mode minCoverage totalReads readsOf spanningOf inEdges)
          st).best = some p ∧ r ≤ p.2) ∧
      ((todo.foldl (processVertex mode minCoverage totalReads readsOf spanningOf inEdges)
          st).best = st.best ∨
        ∃ v ∈ todo, ∃ u ∈ inEdges v,
          (todo.foldl (processVertex mode minCoverage totalReads readsOf spanningOf inEdges)
            st).best = some (v,
              nodeScore mode minCoverage totalReads (readsOf v) (spanningOf v) +
              (todo.foldl (processVertex mode minCoverage totalReads readsOf spanningOf
                inEdges) st).rs u)) := by
  intro todo
  induction todo with
  | nil =>
      intro st _ _ _
      refine ⟨fun w _ => rfl, fun v hv => absurd hv (by simp), fun v hv => absurd hv (by simp),
        fun w r hb => ⟨(w, r), hb, le_refl r⟩, Or.inl rfl⟩
  | cons v0 rest ih =>
      intro st hnd hpw hirr
      have hndr : rest.Nodup := (List.nodup_cons.mp hnd).2
      have hv0r : v0 ∉ rest := (List.nodup_cons.mp hnd).1
      have hpwr : rest.Pairwise (fun a b => b ∉ inEdges a) := (List.pairwise_cons.mp hpw).2
      have hafter : ∀ b ∈ rest, b ∉ inEdges v0 := (List.pairwise_cons.mp hpw).1
      have hirrr : ∀ v ∈ rest, v ∉ inEdges v :=
        fun v hv => hirr v (List.mem_cons.mpr (Or.inr hv))
      have hirr0 : v0 ∉ inEdges v0 := hirr v0 (List.mem_cons.mpr (Or.inl rfl))
      -- in-edge sources of v0 are outside `v0 :: rest`
      have hentry : ∀ u ∈ inEdges v0, u ∉ v0 :: rest := by
        intro u hu hmem
        rcases List.mem_cons.mp hmem with he | hm
        · subst he
          exact hirr0 hu
        · exact hafter u hm hu
      have hne0 : ∀ u ∈ inEdges v0, u ≠ v0 := by
        intro u hu he
        subst he
        exact hirr0 hu
      set st1 := processVertex mode minCoverage totalReads readsOf spanningOf inEdges st v0
        with hst1
      obtain ⟨ihA, ihB, ihC, ihD, ihE⟩ := ih st1 hndr hpwr hirrr
      set res := rest.foldl (processVertex mode minCoverage totalReads readsOf spanningOf
        inEdges) st1 with hres
      have hfold : (v0 :: rest).foldl (processVertex mode minCoverage totalReads readsOf
          spanningOf inEdges) st = res := by
        rw [List.foldl_cons, ← hst1, ← hres]
      rw [hfold]
      -- rs of v0 is stable and has the claimed value in terms of the final map
      have hstable : ∀ u, u ∉ v0 :: rest → res.rs u = st.rs u := by
        intro u hu
        have hur : u ∉ rest := fun hh => hu (List.mem_cons.mpr (Or.inr hh))
        have hune : u ≠ v0 := fun hh => hu (List.mem_cons.mpr (Or.inl hh))
        rw [ihA u hur, hst1]
        exact processVertex_rs_other mode minCoverage totalReads readsOf spanningOf inEdges
          st v0 u hune
      have hpredstable : ∀ u ∈ inEdges v0, res.rs u = st.rs u :=
        fun u hu => hstable u (hentry u hu)
      have hv0val : res.rs v0 =
          nodeScore mode minCoverage totalReads (readsOf v0) (spanningOf v0) +
            ((inEdges v0).map res.rs).foldl max 0 := by
        rw [ihA v0 hv0r, hst1,
          processVertex_rs_self mode minCoverage totalReads readsOf spanningOf inEdges
            st v0 hne0]
        have hcong : (inEdges v0).map st.rs = (inEdges v0).map res.rs := by
          apply List.map_congr_left
          intro u hu
          exact (hpredstable u hu).symm
        rw [hcong]
      refine ⟨?_, ?_, ?_, ?_, ?_⟩
      · -- (A) untouched vertices
        exact fun w hw => hstable w hw
      · -- (B) the recurrence at every processed vertex
        intro v hv
        rcases List.mem_cons.mp hv with he | hm
        · subst he
          exact hv0val
        · exact ihB v hm
      · -- (C) every relaxation value bounds into the final best
        intro v hv u hu
        rcases List.mem_cons.mp hv with he | hm
        · subst he
          obtain ⟨p1, hp1, hle1⟩ := processVertex_best_ge mode minCoverage totalReads readsOf
            spanningOf inEdges st v hne0 u hu
          obtain ⟨p2, hp2, hle2⟩ := ihD p1.1 p1.2 (by
            rw [← hst1] at hp1
            rw [show (p1.1, p1.2) = p1 from rfl]
            exact hp1)
          refine ⟨p2, hp2, ?_⟩
          rw [hpredstable u hu]
          exact le_trans hle1 hle2
        · exact ihC v hm u hu
      · -- (D) the best value never decreases
        intro w r hb
        obtain ⟨p1, hp1, hle1⟩ := processVertex_best_mono mode minCoverage totalReads readsOf
          spanningOf inEdges st v0 w r hb
        obtain ⟨p2, hp2, hle2⟩ := ihD p1.1 p1.2 (by
          rw [← hst1] at hp1
          rw [show (p1.1, p1.2) = p1 from rfl]
          exact hp1)
        exact ⟨p2, hp2, le_trans hle1 hle2⟩
      · -- (E) the best pair is attained by some relaxation
        rcases ihE with hsame | ⟨v, hv, u, hu, hval⟩
        · rcases processVertex_best_attained mode minCoverage totalReads readsOf spanningOf
            inEdges st v0 hne0 with h1 | ⟨u, hu, h1⟩
          · left
            rw [hsame, hst1, h1]
          · right
            refine ⟨v0, List.mem_cons.mpr (Or.inl rfl), u, hu, ?_⟩
            rw [hsame, hst1, h1, hpredstable u hu]
        · right
          exact ⟨v, List.mem_cons.mpr (Or.inr hv), u, hu, hval⟩

/-- Claim C5 as amended: on a topologically ordered vertex list
`enter :: mid ++ [exit]`, the DP assigns
`ReachingScore(v) = score(v) + max(0, max over in-edges u of
ReachingScore(u))` — the initial `ReachingScore(v) = score(v)` is only
replaced by a strictly better relaxation, so a vertex whose predecessors
all have negative reaching scores keeps `score(v)`; `ReachingScore(enter)`
is 0; and the traceback starts at a vertex recorded during edge
relaxation: one attaining the maximum of `score(v) + ReachingScore(u)`
over all (vertex, in-edge source) pairs, which need not be the vertex of
maximal reaching score (see `C5_counterexample`). -/
theorem C5_consensus_dp (mode : AlignMode) (minCoverage totalReads : Nat)
    (readsOf spanningOf : Nat → Nat) (inEdges : Nat → List Nat)
    (enter exitV : Nat) (mid : List Nat)
    (hnd : mid.Nodup)
    (htopo : mid.Pairwise (fun a b => b ∉ inEdges a))
    (hirr : ∀ v ∈ mid, v ∉ inEdges v)
    (henter : enter ∉ mid) :
    (consensusDP mode minCoverage totalReads readsOf spanningOf inEdges
       (enter :: mid ++ [exitV])).rs enter = 0 ∧
    (∀ v ∈ mid,
      (consensusDP mode minCoverage totalReads readsOf spanningOf inEdges
         (enter :: mid ++ [exitV])).rs v =
        nodeScore mode minCoverage totalReads (readsOf v) (spanningOf v) +
          ((inEdges v).map
            (consensusDP mode minCoverage totalReads readsOf spanningOf inEdges
              (enter :: mid ++ [exitV])).rs).foldl max 0) ∧
    (∀ v ∈ mid, ∀ u ∈ inEdges v, ∃ p,
      (consensusDP mode minCoverage totalReads readsOf spanningOf inEdges
         (enter :: mid ++ [exitV])).best = some p ∧
      nodeScore mode minCoverage totalReads (readsOf v) (spanningOf v) +
        (consensusDP mode minCoverage totalReads readsOf spanningOf inEdges
          (enter :: mid ++ [exitV])).rs u ≤ p.2) ∧
    ((consensusDP mode minCoverage totalReads readsOf spanningOf inEdges
        (enter :: mid ++ [exitV])).best = none ∨
      ∃ v ∈ mid, ∃ u ∈ inEdges v,
        (consensusDP mode minCoverage totalReads readsOf spanningOf inEdges
          (enter :: mid ++ [exitV])).best = some (v,
            nodeScore mode minCoverage totalReads (readsOf v) (spanningOf v) +
            (consensusDP mode minCoverage totalReads readsOf spanningOf inEdges
              (enter :: mid ++ [exitV])).rs u)) := by
  obtain ⟨hA, hB, hC, hD, hE⟩ := consensusFold_props mode minCoverage totalReads readsOf
    spanningOf inEdges mid
    ({ rs := updateRS (fun _ => 0) ((enter :: mid ++ [exitV]).headD 0) 0,
       bestPrev := fun _ => none, best := none } : CPState) hnd htopo hirr
  have hdp : consensusDP mode minCoverage totalReads readsOf spanningOf inEdges
      (enter :: mid ++ [exitV]) =
      mid.foldl (processVertex mode minCoverage totalReads readsOf spanningOf inEdges)
        { rs := updateRS (fun _ => 0) ((enter :: mid ++ [exitV]).headD 0) 0,
          bestPrev := fun _ => none, best := none } := by
    unfold consensusDP
    rw [show ((enter :: mid ++ [exitV]).drop 1).dropLast = mid by
      show (mid ++ [exitV]).dropLast = mid
      exact List.dropLast_concat]
  rw [hdp]
  refine ⟨?_, hB, hC, ?_⟩
  · rw [hA enter henter]
    show updateRS (fun _ => 0) enter 0 enter = 0
    rw [updateRS, if_pos rfl]
  · rcases hE with h | h
    · left
      rw [h]
    · right
      exact h

/-- Witness for the amended C5 on the counterexample graph: the enter
vertex has reaching score 0, and vertex 5 satisfies the corrected
recurrence (its single predecessor has a negative reaching score, so the
`max` with 0 leaves `score(5)`). -/
theorem C5_consensus_dp_witness :
    cexDP.rs 0 = 0 ∧
    cexDP.rs 5 =
      nodeScore AlignMode.GLOBAL 0 3 (cexReads 5) 0 +
        ((cexInEdges 5).map cexDP.rs).foldl max 0 := by
  have h := C5_consensus_dp AlignMode.GLOBAL 0 3 cexReads (fun _ => 0) cexInEdges 0 1
    [2, 3, 4, 5] (by decide) (by decide) (by decide) (by decide)
  exact ⟨h.1, h.2.1 5 (by decide)⟩

/-! ### Claim C4: POA threading keeps the graph a DAG -/

/-- The POA graph at the level the threading code manipulates it: vertex
descriptors are `Nat` (fresh vertices get `nextId`), with the distinguished
`enterVertex_` / `exitVertex_`, the edge list (boost `add_edge` appends),
the per-vertex base and `Reads` counters (`addVertex` starts a vertex with
one read).  `SpanningReads` bookkeeping (`tagSpan`) touches only per-vertex
counters, never vertices or edges, and is modelled separately (claim C6). -/
structure PoaGraph where
  nextId : Nat
  enterV : Nat
  exitV : Nat
  edges : List (Nat × Nat)
  bases : List (Nat × Char)
  reads : List (Nat × Nat)
  deriving DecidableEq, Repr

/-- `PoaGraphImpl::addVertex(base)` : allocate a fresh vertex. -/
def addVertex (g : PoaGraph) (b : Char) : Nat × PoaGraph :=
  (g.nextId,
    { g with
      nextId := g.nextId + 1
      bases := g.bases ++ [(g.nextId, b)]
      reads := g.reads ++ [(g.nextId, 1)] })

/-- `add_edge(a, b, g_)`. -/
def addEdge (g : PoaGraph) (a b : Nat) : PoaGraph :=
  { g with edges := g.edges ++ [(a, b)] }

/-- `vertexInfoMap_[v].Reads++`. -/
def bumpReads (g : PoaGraph) (v : Nat) : PoaGraph :=
  { g with reads := g.reads.map (fun p => if p.1 = v then (p.1, p.2 + 1) else p) }

/-- One-step edge relation of an edge list. -/
def EdgeRel (E : List (Nat × Nat)) (a b : Nat) : Prop := (a, b) ∈ E

/-- Graph reachability (reflexive-transitive closure of the edges). -/
def Reaches (E : List (Nat × Nat)) : Nat → Nat → Prop :=
  Relation.ReflTransGen (EdgeRel E)

/-- A directed graph is acyclic when no edge's head reaches back to its
tail. -/
def Acyclic (E : List (Nat × Nat)) : Prop :=
  ∀ a b, (a, b) ∈ E → ¬ Reaches E b a

/-- Well-formedness of a POA graph: vertex ids below `nextId`, distinct
terminals, no edge into `enter`, no edge out of `exit`, and acyclicity. -/
def WF (g : PoaGraph) : Prop :=
  g.enterV < g.nextId ∧ g.exitV < g.nextId ∧ g.enterV ≠ g.exitV ∧
  (∀ e ∈ g.edges, e.1 < g.nextId ∧ e.2 < g.nextId) ∧
  (∀ e ∈ g.edges, e.2 ≠ g.enterV) ∧
  (∀ e ∈ g.edges, e.1 ≠ g.exitV) ∧
  Acyclic g.edges

theorem reaches_mono {E E2 : List (Nat × Nat)} (hsub : ∀ e ∈ E, e ∈ E2) {x y : Nat}
    (h : Reaches E x y) : Reaches E2 x y := by
  refine Relation.ReflTransGen.mono ?_ h
  intro a b hab
  exact hsub (a, b) hab

theorem reaches_snoc_decompose {E : List (Nat × Nat)} {p q x y : Nat}
    (h : Reaches (E ++ [(p, q)]) x y) :
    Reaches E x y ∨ (Reaches E x p ∧ Reaches E q y) := by
  induction h using Relation.ReflTransGen.head_induction_on with
  | refl => exact Or.inl Relation.ReflTransGen.refl
  | head hstep hrest ih =>
      rename_i a2 c2
      have hmem : (a2, c2) ∈ E ++ [(p, q)] := hstep
      rcases List.mem_append.mp hmem with hE | hnew
      · rcases ih with h1 | ⟨h2, h3⟩
        · exact Or.inl (Relation.ReflTransGen.head hE h1)
        · exact Or.inr ⟨Relation.ReflTransGen.head hE h2, h3⟩
      · obtain ⟨ha, hc⟩ := Prod.mk.inj (List.mem_singleton.mp hnew)
        subst ha; subst hc
        rcases ih with h1 | ⟨h2, h3⟩
        · exact Or.inr ⟨Relation.ReflTransGen.refl, h1⟩
        · exact Or.inr ⟨Relation.ReflTransGen.refl, h3⟩

/-- A vertex with no outgoing edge reaches only itself. -/
theorem reaches_no_out {E : List (Nat × Nat)} {x y : Nat}
    (h : Reaches E x y) : (∀ e ∈ E, e.1 ≠ x) → y = x := by
  induction h using Relation.ReflTransGen.head_induction_on with
  | refl => intro _; rfl
  | head hstep hrest ih =>
      rename_i a2 c2
      intro hno
      exact absurd rfl (hno (a2, c2) hstep)

/-- A vertex with no incoming edge is reached only by itself. -/
theorem reaches_no_in {E : List (Nat × Nat)} {x y : Nat}
    (h : Reaches E y x) : (∀ e ∈ E, e.2 ≠ x) → y = x := by
  induction h with
  | refl => intro _; rfl
  | tail hrest hlast ih =>
      rename_i b2 c2
      intro hno
      exact absurd rfl (hno (b2, c2) hlast)

theorem acyclic_snoc {E : List (Nat × Nat)} {p q : Nat} (hacy : Acyclic E)
    (hnr : ¬ Reaches E q p) : Acyclic (E ++ [(p, q)]) := by
  intro c d hcd hreach
  rcases reaches_snoc_decompose hreach with h1 | ⟨h2, h3⟩
  · rcases List.mem_append.mp hcd with hE | hnew
    · exact hacy c d hE h1
    · obtain ⟨hc, hd⟩ := Prod.mk.inj (List.mem_singleton.mp hnew)
      subst hc; subst hd
      exact hnr h1
  · rcases List.mem_append.mp hcd with hE | hnew
    · -- d reaches p, and q reaches c, with edge (c, d) in E: so q reaches p
      exact hnr (Relation.ReflTransGen.trans h3
        (Relation.ReflTransGen.trans (Relation.ReflTransGen.single hE) h2))
    · obtain ⟨hc, hd⟩ := Prod.mk.inj (List.mem_singleton.mp hnew)
      subst hc; subst hd
      exact hnr h3

/-- A fresh vertex (at or above every edge endpoint) has no edges. -/
theorem fresh_no_edge {g : PoaGraph} (hb : ∀ e ∈ g.edges, e.1 < g.nextId ∧ e.2 < g.nextId)
    {n : Nat} (hn : g.nextId ≤ n) :
    (∀ e ∈ g.edges, e.1 ≠ n) ∧ (∀ e ∈ g.edges, e.2 ≠ n) := by
  constructor
  · intro e he hne
    have := (hb e he).1
    omega
  · intro e he hne
    have := (hb e he).2
    omega

theorem addEdge_WF {g : PoaGraph} {a b : Nat} (hwf : WF g)
    (ha : a < g.nextId) (hb : b < g.nextId) (hbe : b ≠ g.enterV) (hax : a ≠ g.exitV)
    (hnr : ¬ Reaches g.edges b a) : WF (addEdge g a b) := by
  obtain ⟨h1, h2, h3, h4, h5, h6, h7⟩ := hwf
  refine ⟨h1, h2, h3, ?_, ?_, ?_, acyclic_snoc h7 hnr⟩
  · intro e he
    rcases List.mem_append.mp he with hE | hnew
    · exact h4 e hE
    · have heq := List.mem_singleton.mp hnew
      subst heq
      exact ⟨ha, hb⟩
  · intro e he
    rcases List.mem_append.mp he with hE | hnew
    · exact h5 e hE
    · have heq := List.mem_singleton.mp hnew
      subst heq
      exact hbe
  · intro e he
    rcases List.mem_append.mp he with hE | hnew
    · exact h6 e hE
    · have heq := List.mem_singleton.mp hnew
      subst heq
      exact hax

theorem addVertex_WF {g : PoaGraph} (hwf : WF g) (b : Char) : WF (addVertex g b).2 := by
  obtain ⟨h1, h2, h3, h4, h5, h6, h7⟩ := hwf
  refine ⟨by show g.enterV < g.nextId + 1; omega, by show g.exitV < g.nextId + 1; omega,
    h3, ?_, h5, h6, h7⟩
  intro e he
  have := h4 e he
  show e.1 < g.nextId + 1 ∧ e.2 < g.nextId + 1
  omega

theorem bumpReads_WF {g : PoaGraph} (hwf : WF g) (v : Nat) : WF (bumpReads g v) := hwf

/-- `enum MoveType` from PoaGraphImpl.hpp (as used by `tracebackAndThread`). -/
inductive MoveT where
  | InvalidMove
  | StartMove
  | EndMove
  | MatchMove
  | MismatchMove
  | DeleteMove
  | ExtraMove
  deriving DecidableEq, Repr

/-- Modelled from the spec: `ArgMax` over a score column (Utils.hpp is not
among the sources); the first index in `0..n` attaining the maximal score. -/
def argMaxRow (f : Nat → ℚ) : Nat → Nat
  | 0 => 0
  | n + 1 =>
      if f (argMaxRow f n) < f (n + 1) then n + 1 else argMaxRow f n

/-- Modelled from the spec: validity of one cell `(w, i)` of the alignment
column map.  The DP that builds `AlignmentColumnMap` lives in
`PoaGraphImpl::AddRead`, which is not among the given sources; per spec
section 4.2 a Match/Mismatch move reaches `w` from a true graph predecessor
one row down, a Delete move from a true predecessor in the same row, an
Extra move from the same vertex one row down, a Start move from the enter
vertex, and an End move (recorded at the exit vertex) from some existing
vertex; no cell consulted is Invalid. -/
def validCell (g : PoaGraph) (colMove : Nat → Nat → MoveT) (colPrev : Nat → Nat → Nat)
    (w i : Nat) : Prop :=
  (colMove w i = MoveT.MatchMove →
    1 ≤ i ∧ (colPrev w i, w) ∈ g.edges ∧ w ≠ g.enterV ∧ w ≠ g.exitV) ∧
  (colMove w i = MoveT.MismatchMove →
    1 ≤ i ∧ (colPrev w i, w) ∈ g.edges ∧ w ≠ g.enterV ∧ w ≠ g.exitV) ∧
  (colMove w i = MoveT.DeleteMove →
    (colPrev w i, w) ∈ g.edges ∧ w ≠ g.enterV ∧ w ≠ g.exitV) ∧
  (colMove w i = MoveT.ExtraMove → 1 ≤ i ∧ colPrev w i = w ∧ w ≠ g.exitV) ∧
  (colMove w i = MoveT.StartMove → colPrev w i = g.enterV ∧ w ≠ g.exitV) ∧
  (colMove w i = MoveT.EndMove → w = g.exitV ∧ colPrev w i < g.nextId) ∧
  colMove w i ≠ MoveT.InvalidMove

/-- Modelled from the spec: every cell of the column map that the traceback
can consult (vertex below `nextId`, row at most the read length) is valid. -/
def ValidCols (g : PoaGraph) (I : Nat) (colMove : Nat → Nat → MoveT)
    (colPrev : Nat → Nat → Nat) : Prop :=
  ∀ w, w < g.nextId → ∀ i, i ≤ I → validCell g colMove colPrev w i

instance (g : PoaGraph) (colMove : Nat → Nat → MoveT) (colPrev : Nat → Nat → Nat)
    (w i : Nat) : Decidable (validCell g colMove colPrev w i) := by
  unfold validCell; infer_instance

instance (g : PoaGraph) (I : Nat) (colMove : Nat → Nat → MoveT)
    (colPrev : Nat → Nat → Nat) : Decidable (ValidCols g I colMove colPrev) := by
  unfold ValidCols; infer_instance

/-- The `while (i > stop)` loops of the Start/End branches of
`tracebackAndThread`: repeatedly `addVertex(sequence[i-1])`,
`add_edge(newForkVertex, forkVertex)`, `forkVertex = newForkVertex`, `i--`.
Returns the final graph and fork vertex. -/
def threadChain (seq : List Char) : Nat → Nat → PoaGraph → Nat → PoaGraph × Nat
  | 0, _, g, f => (g, f)
  | i + 1, stop, g, f =>
      if i + 1 ≤ stop then (g, f)
      else
        let p := addVertex g (seq.getD i 'A')
        threadChain seq i stop (addEdge p.2 p.1 f) p.1

theorem threadChain_spec (seq : List Char) :
    ∀ (i stop : Nat) (g : PoaGraph) (f : Nat), WF g → f < g.nextId → f ≠ g.enterV →
    (threadChain seq i stop g f).1.enterV = g.enterV ∧
    (threadChain seq i stop g f).1.exitV = g.exitV ∧
    g.nextId ≤ (threadChain seq i stop g f).1.nextId ∧
    (∀ e ∈ g.edges, e ∈ (threadChain seq i stop g f).1.edges) ∧
    WF (threadChain seq i stop g f).1 ∧
    (threadChain seq i stop g f).2 < (threadChain seq i stop g f).1.nextId ∧
    (threadChain seq i stop g f).2 ≠ g.enterV ∧
    (∀ x, x < g.nextId → Reaches (threadChain seq i stop g f).1.edges
      (threadChain seq i stop g f).2 x → Reaches g.edges f x) := by
  intro i
  induction i with
  | zero =>
      intro stop g f hwf hf hfe
      exact ⟨rfl, rfl, le_refl _, fun e he => he, hwf, hf, hfe, fun x _ h => h⟩
  | succ i ih =>
      intro stop g f hwf hf hfe
      by_cases hstop : i + 1 ≤ stop
      · rw [threadChain, if_pos hstop]
        exact ⟨rfl, rfl, le_refl _, fun e he => he, hwf, hf, hfe, fun x _ h => h⟩
      · have hstep : threadChain seq (i + 1) stop g f =
            threadChain seq i stop
              (addEdge (addVertex g (seq.getD i 'A')).2 (addVertex g (seq.getD i 'A')).1 f)
              (addVertex g (seq.getD i 'A')).1 := by
          rw [threadChain, if_neg hstop]
        rw [hstep]
        set p := addVertex g (seq.getD i 'A') with hp
        have hpfst : p.1 = g.nextId := rfl
        have hpenter : p.2.enterV = g.enterV := rfl
        have hpexit : p.2.exitV = g.exitV := rfl
        have hpnext : p.2.nextId = g.nextId + 1 := rfl
        have hpedges : p.2.edges = g.edges := rfl
        have hwfp : WF p.2 := addVertex_WF hwf _
        obtain ⟨he1, he2, he3, he4, he5, he6, he7⟩ := hwf
        -- the fresh vertex p.1 has no incoming edge, so f cannot reach it
        have hnr : ¬ Reaches p.2.edges f p.1 := by
          rw [hpedges, hpfst]
          intro hr
          have hx := reaches_no_in hr (fresh_no_edge he4 (le_refl _)).2
          omega
        have hg2 : WF (addEdge p.2 p.1 f) := by
          refine addEdge_WF hwfp ?_ ?_ ?_ ?_ ?_
          · rw [hpnext, hpfst]; omega
          · rw [hpnext]; omega
          · rw [hpenter]; exact hfe
          · rw [hpexit, hpfst]; omega
          · exact hnr
        set g2 := addEdge p.2 p.1 f with hg2def
        have hg2enter : g2.enterV = g.enterV := rfl
        have hg2exit : g2.exitV = g.exitV := rfl
        have hg2next : g2.nextId = g.nextId + 1 := rfl
        have hg2edges : g2.edges = g.edges ++ [(g.nextId, f)] := rfl
        have hih := ih stop g2 p.1 hg2 (by rw [hg2next, hpfst]; omega)
          (by rw [hg2enter, hpfst]; omega)
        obtain ⟨i1, i2, i3, i4, i5, i6, i7, i8⟩ := hih
        refine ⟨by rw [i1, hg2enter], by rw [i2, hg2exit], by rw [hg2next] at i3; omega,
          ?_, i5, i6, by rw [hg2enter] at i7; exact i7, ?_⟩
        · intro e he
          refine i4 e ?_
          rw [hg2edges]
          exact List.mem_append.mpr (Or.inl he)
        · intro x hx hr
          have hr2 := i8 x (by rw [hg2next]; omega) hr
          rw [hg2edges] at hr2
          rcases reaches_snoc_decompose hr2 with h1 | ⟨h2, h3⟩
          · have := reaches_no_out h1 (fresh_no_edge he4 (le_refl _)).1
            omega
          · exact h3

/-- The traceback loop of `PoaGraphImpl::tracebackAndThread` (release
semantics: assertions erased).  State: current graph, current vertex `u`,
last visited vertex `v`, `forkVertex`, row `i`.  Each iteration reads
`ReachingMove`/`PreviousVertex` at `(u, i)` and acts per move; the result is
`none` when the C++ has undefined behaviour (an edge to `null_vertex`, a
read position `i - 1` below zero, an `InvalidMove`, or non-termination
within `fuel` iterations); `outputPath` recording and the `tagSpan` counter
update (claim C6) have no effect on the graph structure and are omitted.
On loop exit a pending `forkVertex` is joined to the enter vertex. -/
def tbGo (seq : List Char) (colMove : Nat → Nat → MoveT) (colPrev : Nat → Nat → Nat)
    (colScore : Nat → Nat → ℚ) (mode : AlignMode) :
    Nat → PoaGraph → Nat → Option Nat → Option Nat → Nat → Option PoaGraph
  | 0, g, u, v, fork, i =>
    if u = g.enterV ∧ i = 0 then
      some (match fork with
            | some f => addEdge g g.enterV f
            | none => g)
    else none
  | fuel + 1, g, u, v, fork, i =>
    if u = g.enterV ∧ i = 0 then
      some (match fork with
            | some f => addEdge g g.enterV f
            | none => g)
    else
        match colMove u i with
        | MoveT.StartMove =>
            match i with
            | 0 =>
                tbGo seq colMove colPrev colScore mode fuel g (colPrev u 0) (some u)
                  (if fork = none then v else fork) 0
            | j + 1 =>
                match (if fork = none then v else fork) with
                | none => none
                | some f =>
                    let r := threadChain seq (j + 1) 0 g f
                    tbGo seq colMove colPrev colScore mode fuel r.1 (colPrev u (j + 1))
                      (some u) (some r.2) 0
        | MoveT.EndMove =>
            if mode = AlignMode.LOCAL then
              let stop := argMaxRow (colScore (colPrev u i)) seq.length
              let r := threadChain seq i stop g g.exitV
              tbGo seq colMove colPrev colScore mode fuel r.1 (colPrev u i) (some u)
                (some r.2) (min i stop)
            else
              tbGo seq colMove colPrev colScore mode fuel g (colPrev u i) (some u)
                (some g.exitV) i
        | MoveT.MatchMove =>
            match i with
            | 0 => none
            | j + 1 =>
                let g2 := match fork with
                          | some f => addEdge g u f
                          | none => g
                tbGo seq colMove colPrev colScore mode fuel (bumpReads g2 u)
                  (colPrev u (j + 1)) (some u) none j
        | MoveT.DeleteMove =>
            tbGo seq colMove colPrev colScore mode fuel g (colPrev u i) (some u)
              (if fork = none then v else fork) i
        | MoveT.MismatchMove =>
            match i with
            | 0 => none
            | j + 1 =>
                match (if fork = none then v else fork) with
                | none => none
                | some f =>
                    let p := addVertex g (seq.getD j 'A')
                    tbGo seq colMove colPrev colScore mode fuel (addEdge p.2 p.1 f)
                      (colPrev u (j + 1)) (some u) (some p.1) j
        | MoveT.ExtraMove =>
            match i with
            | 0 => none
            | j + 1 =>
                match (if fork = none then v else fork) with
                | none => none
                | some f =>
                    let p := addVertex g (seq.getD j 'A')
                    tbGo seq colMove colPrev colScore mode fuel (addEdge p.2 p.1 f)
                      (colPrev u (j + 1)) (some u) (some p.1) j
        | MoveT.InvalidMove => none

theorem tbGo_zero_eq (seq : List Char) (colMove : Nat → Nat → MoveT)
    (colPrev : Nat → Nat → Nat) (colScore : Nat → Nat → ℚ) (mode : AlignMode)
    (g : PoaGraph) (u : Nat) (v fork : Option Nat) (i : Nat) :
    tbGo seq colMove colPrev colScore mode 0 g u v fork i =
      if u = g.enterV ∧ i = 0 then
        some (match fork with
              | some f => addEdge g g.enterV f
              | none => g)
      else none := rfl

theorem tbGo_succ_eq (seq : List Char) (colMove : Nat → Nat → MoveT)
    (colPrev : Nat → Nat → Nat) (colScore : Nat → Nat → ℚ) (mode : AlignMode)
    (fuel : Nat) (g : PoaGraph) (u : Nat) (v fork : Option Nat) (i : Nat) :
    tbGo seq colMove colPrev colScore mode (fuel + 1) g u v fork i =
      if u = g.enterV ∧ i = 0 then
        some (match fork with
              | some f => addEdge g g.enterV f
              | none => g)
      else
        match colMove u i with
        | MoveT.StartMove =>
            match i with
            | 0 =>
                tbGo seq colMove colPrev colScore mode fuel g (colPrev u 0) (some u)
                  (if fork = none then v else fork) 0
            | j + 1 =>
                match (if fork = none then v else fork) with
                | none => none
                | some f =>
                    let r := threadChain seq (j + 1) 0 g f
                    tbGo seq colMove colPrev colScore mode fuel r.1 (colPrev u (j + 1))
                      (some u) (some r.2) 0
        | MoveT.EndMove =>
            if mode = AlignMode.LOCAL then
              let stop := argMaxRow (colScore (colPrev u i)) seq.length
              let r := threadChain seq i stop g g.exitV
              tbGo seq colMove colPrev colScore mode fuel r.1 (colPrev u i) (some u)
                (some r.2) (min i stop)
            else
              tbGo seq colMove colPrev colScore mode fuel g (colPrev u i) (some u)
                (some g.exitV) i
        | MoveT.MatchMove =>
            match i with
            | 0 => none
            | j + 1 =>
                let g2 := match fork with
                          | some f => addEdge g u f
                          | none => g
                tbGo seq colMove colPrev colScore mode fuel (bumpReads g2 u)
                  (colPrev u (j + 1)) (some u) none j
        | MoveT.DeleteMove =>
            tbGo seq colMove colPrev colScore mode fuel g (colPrev u i) (some u)
              (if fork = none then v else fork) i
        | MoveT.MismatchMove =>
            match i with
            | 0 => none
            | j + 1 =>
                match (if fork = none then v else fork) with
                | none => none
                | some f =>
                    let p := addVertex g (seq.getD j 'A')
                    tbGo seq colMove colPrev colScore mode fuel (addEdge p.2 p.1 f)
                      (colPrev u (j + 1)) (some u) (some p.1) j
        | MoveT.ExtraMove =>
            match i with
            | 0 => none
            | j + 1 =>
                match (if fork = none then v else fork) with
                | none => none
                | some f =>
                    let p := addVertex g (seq.getD j 'A')
                    tbGo seq colMove colPrev colScore mode fuel (addEdge p.2 p.1 f)
                      (colPrev u (j + 1)) (some u) (some p.1) j
        | MoveT.InvalidMove => none := rfl

/-- `PoaGraphImpl::tracebackAndThread` : traceback from `(exitVertex_, I)`
with `v = forkVertex = null_vertex`. -/
def tracebackAndThread (seq : List Char) (colMove : Nat → Nat → MoveT)
    (colPrev : Nat → Nat → Nat) (colScore : Nat → Nat → ℚ) (mode : AlignMode)
    (fuel : Nat) (g : PoaGraph) : Option PoaGraph :=
  tbGo seq colMove colPrev colScore mode fuel g g.exitV none none seq.length

/-- The `foreach` body of `PoaGraphImpl::threadFirstRead` after the first
base: `v = addVertex(base); add_edge(u, v); u = v`. -/
def tfrGo : List Char → PoaGraph → Nat → PoaGraph × Nat
  | [], g, u => (g, u)
  | b :: rest, g, u =>
      let p := addVertex g b
      tfrGo rest (addEdge p.2 u p.1) p.1

/-- `PoaGraphImpl::threadFirstRead` : thread the first read as a fresh
chain `enter -> b1 -> ... -> bn -> exit` (the `tagSpan` counter update is
graph-structure neutral and omitted); `none` on the empty read, where the
C++ would `add_edge(null_vertex, exitVertex_)`. -/
def threadFirstRead (g : PoaGraph) (seq : List Char) : Option PoaGraph :=
  match seq with
  | [] => none
  | b :: rest =>
      let p := addVertex g b
      let r := tfrGo rest (addEdge p.2 g.enterV p.1) p.1
      some (addEdge r.1 r.2 g.exitV)

theorem addEdge_enter_WF {g : PoaGraph} {f : Nat} (hwf : WF g) (hf : f < g.nextId)
    (hfe : f ≠ g.enterV) : WF (addEdge g g.enterV f) := by
  obtain ⟨h1, h2, h3, h4, h5, h6, h7⟩ := hwf
  refine addEdge_WF ⟨h1, h2, h3, h4, h5, h6, h7⟩ h1 hf hfe h3 ?_
  intro hr
  exact hfe (reaches_no_in hr h5)

theorem tfrGo_spec : ∀ (rest : List Char) (g : PoaGraph) (u : Nat),
    WF g → u < g.nextId → u ≠ g.exitV →
    (tfrGo rest g u).1.enterV = g.enterV ∧
    (tfrGo rest g u).1.exitV = g.exitV ∧
    WF (tfrGo rest g u).1 ∧
    (tfrGo rest g u).2 < (tfrGo rest g u).1.nextId ∧
    (tfrGo rest g u).2 ≠ g.exitV := by
  intro rest
  induction rest with
  | nil =>
      intro g u hwf hu hux
      exact ⟨rfl, rfl, hwf, hu, hux⟩
  | cons b rest ih =>
      intro g u hwf hu hux
      have hstep : tfrGo (b :: rest) g u =
          tfrGo rest (addEdge (addVertex g b).2 u (addVertex g b).1) (addVertex g b).1 := rfl
      rw [hstep]
      obtain ⟨h1, h2, h3, h4, h5, h6, h7⟩ := hwf
      set p := addVertex g b with hp
      have hwfp : WF p.2 := addVertex_WF ⟨h1, h2, h3, h4, h5, h6, h7⟩ b
      have hg2 : WF (addEdge p.2 u p.1) := by
        refine addEdge_WF hwfp ?_ ?_ ?_ ?_ ?_
        · show u < g.nextId + 1; omega
        · show g.nextId < g.nextId + 1; omega
        · show g.nextId ≠ g.enterV; omega
        · exact hux
        · show ¬ Reaches g.edges g.nextId u
          intro hr
          have := reaches_no_out hr (fresh_no_edge h4 (le_refl _)).1
          omega
      have hih := ih (addEdge p.2 u p.1) p.1 hg2
        (by show g.nextId < g.nextId + 1; omega)
        (by show g.nextId ≠ g.exitV; omega)
      obtain ⟨i1, i2, i3, i4, i5⟩ := hih
      exact ⟨i1, i2, i3, i4, i5⟩

theorem threadFirstRead_WF {g g2 : PoaGraph} {seq : List Char} (hwf : WF g)
    (h : threadFirstRead g seq = some g2) : WF g2 := by
  match seq with
  | [] => exact Option.noConfusion h
  | b :: rest =>
      have hstep : threadFirstRead g (b :: rest) =
          some (addEdge (tfrGo rest (addEdge (addVertex g b).2 g.enterV (addVertex g b).1)
              (addVertex g b).1).1
            (tfrGo rest (addEdge (addVertex g b).2 g.enterV (addVertex g b).1)
              (addVertex g b).1).2 g.exitV) := rfl
      rw [hstep] at h
      obtain rfl := Option.some.inj h.symm
      obtain ⟨h1, h2, h3, h4, h5, h6, h7⟩ := hwf
      set p := addVertex g b with hp
      have hwfp : WF p.2 := addVertex_WF ⟨h1, h2, h3, h4, h5, h6, h7⟩ b
      have hg1 : WF (addEdge p.2 g.enterV p.1) := by
        refine addEdge_WF hwfp ?_ ?_ ?_ ?_ ?_
        · show g.enterV < g.nextId + 1; omega
        · show g.nextId < g.nextId + 1; omega
        · show g.nextId ≠ g.enterV; omega
        · exact h3
        · show ¬ Reaches g.edges g.nextId g.enterV
          intro hr
          have := reaches_no_out hr (fresh_no_edge h4 (le_refl _)).1
          omega
      have hsp := tfrGo_spec rest (addEdge p.2 g.enterV p.1) p.1 hg1
        (by show g.nextId < g.nextId + 1; omega)
        (by show g.nextId ≠ g.exitV; omega)
      obtain ⟨s1, s2, s3, s4, s5⟩ := hsp
      set r := tfrGo rest (addEdge p.2 g.enterV p.1) p.1 with hr
      obtain ⟨w1, w2, w3, w4, w5, w6, w7⟩ := s3
      have hxe : r.1.exitV = g.exitV := s2
      have hen : r.1.enterV = g.enterV := s1
      have hne : r.2 ≠ g.exitV := s5
      refine addEdge_WF ⟨w1, w2, w3, w4, w5, w6, w7⟩ s4 ?_ ?_ ?_ ?_
      · rw [← hxe]; exact w2
      · rw [hen]; exact Ne.symm h3
      · rw [hxe]; exact hne
      · intro hrx
        exact hne (reaches_no_out hrx (fun e he => hxe ▸ w6 e he))

/-- Loop invariant preservation for `tracebackAndThread` : under a valid
column map, every graph the loop can return is well-formed (in particular
acyclic).  The invariant carries: well-formedness of the current graph, the
terminals and old edges are untouched, `u` is an original vertex, `v` (when
set) is the exit vertex, `u` itself, a direct successor of `u`, or the loop
is done, `v = null` only at the exit vertex, `v == u` forces a pending fork,
and any pending fork vertex is not the enter vertex and cannot reach `u`. -/
theorem tbGo_wf (seq : List Char) (colMove : Nat → Nat → MoveT)
    (colPrev : Nat → Nat → Nat) (colScore : Nat → Nat → ℚ) (mode : AlignMode)
    (g₀ : PoaGraph) (hwf₀ : WF g₀)
    (hval : ValidCols g₀ seq.length colMove colPrev) :
    ∀ (fuel : Nat) (g : PoaGraph) (u : Nat) (v fork : Option Nat) (i : Nat),
      WF g →
      g.enterV = g₀.enterV → g.exitV = g₀.exitV → g₀.nextId ≤ g.nextId →
      (∀ e ∈ g₀.edges, e ∈ g.edges) →
      u < g₀.nextId → i ≤ seq.length →
      (∀ v2, v = some v2 → v2 < g.nextId ∧
        (v2 = g.exitV ∨ u = v2 ∨ (u, v2) ∈ g.edges ∨ (u = g.enterV ∧ i = 0))) →
      (v = none → u = g.exitV) →
      (v = some u → fork ≠ none) →
      (∀ f, fork = some f → f < g.nextId ∧ f ≠ g.enterV ∧
        (u = g.exitV ∨ ¬ Reaches g.edges f u)) →
      ∀ gf, tbGo seq colMove colPrev colScore mode fuel g u v fork i = some gf →
      WF gf := by
  obtain ⟨z1, z2, z3, z4, z5, z6, z7⟩ := hwf₀
  intro fuel
  induction fuel with
  | zero =>
      intro g u v fork i hwf hgE hgX hnext hsub hu hi hv hvn hvu hfork gf hgf
      by_cases hdone : u = g.enterV ∧ i = 0
      · rw [tbGo_zero_eq, if_pos hdone] at hgf
        rcases fork with _ | f
        · obtain rfl := Option.some.inj hgf
          exact hwf
        · obtain rfl := Option.some.inj hgf
          obtain ⟨hf1, hf2, hf3⟩ := hfork f rfl
          exact addEdge_enter_WF hwf hf1 hf2
      · rw [tbGo_zero_eq, if_neg hdone] at hgf
        exact Option.noConfusion hgf
  | succ fuel ih =>
      intro g u v fork i hwf hgE hgX hnext hsub hu hi hv hvn hvu hfork gf hgf
      by_cases hdone : u = g.enterV ∧ i = 0
      · rw [tbGo_succ_eq, if_pos hdone] at hgf
        rcases fork with _ | f
        · obtain rfl := Option.some.inj hgf
          exact hwf
        · obtain rfl := Option.some.inj hgf
          obtain ⟨hf1, hf2, hf3⟩ := hfork f rfl
          exact addEdge_enter_WF hwf hf1 hf2
      · rw [tbGo_succ_eq, if_neg hdone] at hgf
        obtain ⟨w1, w2, w3, w4, w5, w6, w7⟩ := hwf
        have hfk : ∀ f2, (if fork = none then v else fork) = some f2 →
            f2 < g.nextId ∧ f2 ≠ g.enterV ∧ (u = g.exitV ∨ ¬ Reaches g.edges f2 u) := by
          intro f2 hf2
          by_cases hfn : fork = none
          · rw [if_pos hfn] at hf2
            obtain ⟨hlt, hdis⟩ := hv f2 hf2
            rcases hdis with h1 | h1 | h1 | h1
            · refine ⟨hlt, ?_, ?_⟩
              · rw [h1]; exact Ne.symm w3
              · by_cases hue : u = g.exitV
                · exact Or.inl hue
                · refine Or.inr ?_
                  intro hr
                  rw [h1] at hr
                  exact hue (reaches_no_out hr w6)
            · exact absurd hfn (hvu (hf2.trans (congrArg some h1).symm))
            · exact ⟨hlt, w5 (u, f2) h1, Or.inr (w7 u f2 h1)⟩
            · exact absurd h1 hdone
          · rcases fork with _ | f3
            · exact absurd rfl hfn
            · rw [if_neg hfn] at hf2
              obtain heq := Option.some.inj hf2
              subst heq
              exact hfork _ rfl
        have hcell := hval u hu i hi
        obtain ⟨cM, cMM, cD, cE, cS, cEnd, cI⟩ := hcell
        cases hmove : colMove u i with
        | InvalidMove =>
            rw [hmove] at hgf
            exact Option.noConfusion hgf
        | StartMove =>
            rw [hmove] at hgf
            obtain ⟨hpS, huxS⟩ := cS hmove
            rcases i with _ | j
            · replace hgf : tbGo seq colMove colPrev colScore mode fuel g (colPrev u 0)
                  (some u) (if fork = none then v else fork) 0 = some gf := hgf
              have hue : u ≠ g.enterV := fun h => hdone ⟨h, rfl⟩
              refine ih g (colPrev u 0) (some u) (if fork = none then v else fork) 0
                ⟨w1, w2, w3, w4, w5, w6, w7⟩ hgE hgX hnext hsub ?_ (Nat.zero_le _)
                ?_ ?_ ?_ ?_ gf hgf
              · rw [hpS]; exact z1
              · intro v2 hv2
                obtain rfl := Option.some.inj hv2
                refine ⟨by omega, Or.inr (Or.inr (Or.inr ⟨?_, rfl⟩))⟩
                rw [hpS, hgE]
              · intro h0; exact Option.noConfusion h0
              · intro heq
                have huu : u = colPrev u 0 := Option.some.inj heq
                rw [hpS] at huu
                exact (hue (huu.trans hgE.symm)).elim
              · intro f2 hf2
                obtain ⟨k1, k2, k3⟩ := hfk f2 hf2
                refine ⟨k1, k2, Or.inr ?_⟩
                intro hr
                rw [hpS, ← hgE] at hr
                exact k2 (reaches_no_in hr w5)
            · rcases hfks : (if fork = none then v else fork) with _ | f
              · rw [hfks] at hgf
                exact Option.noConfusion hgf
              · rw [hfks] at hgf
                replace hgf : tbGo seq colMove colPrev colScore mode fuel
                    (threadChain seq (j + 1) 0 g f).1 (colPrev u (j + 1)) (some u)
                    (some (threadChain seq (j + 1) 0 g f).2) 0 = some gf := hgf
                obtain ⟨k1, k2, k3⟩ := hfk f hfks
                have hch := threadChain_spec seq (j + 1) 0 g f
                  ⟨w1, w2, w3, w4, w5, w6, w7⟩ k1 k2
                set r := threadChain seq (j + 1) 0 g f with hrdef
                obtain ⟨c1, c2, c3, c4, c5, c6, c7, c8⟩ := hch
                refine ih r.1 (colPrev u (j + 1)) (some u) (some r.2) 0
                  c5 (c1.trans hgE) (c2.trans hgX) (le_trans hnext c3)
                  (fun e he => c4 e (hsub e he)) ?_ (Nat.zero_le _) ?_ ?_ ?_ ?_ gf hgf
                · rw [hpS]; exact z1
                · intro v2 hv2
                  obtain rfl := Option.some.inj hv2
                  refine ⟨by omega, Or.inr (Or.inr (Or.inr ⟨?_, rfl⟩))⟩
                  rw [hpS, c1, hgE]
                · intro h0; exact Option.noConfusion h0
                · intro _; exact Option.some_ne_none _
                · intro f2 hf2
                  obtain heq := Option.some.inj hf2
                  subst heq
                  refine ⟨c6, by rw [c1]; exact c7, Or.inr ?_⟩
                  intro hr
                  rw [hpS] at hr
                  obtain ⟨y1, y2, y3, y4, y5, y6, y7⟩ := c5
                  have hre := reaches_no_in hr
                    (fun e he => (c1.trans hgE) ▸ y5 e he)
                  exact c7 (hre.trans hgE.symm)
        | EndMove =>
            rw [hmove] at hgf
            obtain ⟨huX, hpE⟩ := cEnd hmove
            replace hgf : (if mode = AlignMode.LOCAL then
                tbGo seq colMove colPrev colScore mode fuel
                  (threadChain seq i (argMaxRow (colScore (colPrev u i)) seq.length)
                    g g.exitV).1
                  (colPrev u i) (some u)
                  (some (threadChain seq i (argMaxRow (colScore (colPrev u i)) seq.length)
                    g g.exitV).2)
                  (min i (argMaxRow (colScore (colPrev u i)) seq.length))
              else
                tbGo seq colMove colPrev colScore mode fuel g (colPrev u i) (some u)
                  (some g.exitV) i) = some gf := hgf
            by_cases hmode : mode = AlignMode.LOCAL
            · rw [if_pos hmode] at hgf
              set stop := argMaxRow (colScore (colPrev u i)) seq.length with hstopdef
              have hch := threadChain_spec seq i stop g g.exitV
                ⟨w1, w2, w3, w4, w5, w6, w7⟩ w2 (Ne.symm w3)
              set r := threadChain seq i stop g g.exitV with hrdef
              obtain ⟨c1, c2, c3, c4, c5, c6, c7, c8⟩ := hch
              refine ih r.1 (colPrev u i) (some u) (some r.2) (min i stop)
                c5 (c1.trans hgE) (c2.trans hgX) (le_trans hnext c3)
                (fun e he => c4 e (hsub e he)) hpE
                (le_trans (min_le_left _ _) hi) ?_ ?_ ?_ ?_ gf hgf
              · intro v2 hv2
                obtain rfl := Option.some.inj hv2
                refine ⟨by omega, Or.inl ?_⟩
                rw [huX, c2, hgX]
              · intro h0; exact Option.noConfusion h0
              · intro _; exact Option.some_ne_none _
              · intro f2 hf2
                obtain heq := Option.some.inj hf2
                subst heq
                refine ⟨c6, by rw [c1]; exact c7, ?_⟩
                by_cases hux : colPrev u i = g.exitV
                · exact Or.inl (by rw [hux]; exact c2.symm)
                · refine Or.inr ?_
                  intro hr
                  have hr2 := c8 (colPrev u i) (by omega) hr
                  exact hux (reaches_no_out hr2 w6)
            · rw [if_neg hmode] at hgf
              refine ih g (colPrev u i) (some u) (some g.exitV) i
                ⟨w1, w2, w3, w4, w5, w6, w7⟩ hgE hgX hnext hsub hpE hi ?_ ?_ ?_ ?_ gf hgf
              · intro v2 hv2
                obtain rfl := Option.some.inj hv2
                exact ⟨by omega, Or.inl (by rw [huX, hgX])⟩
              · intro h0; exact Option.noConfusion h0
              · intro _; exact Option.some_ne_none _
              · intro f2 hf2
                obtain heq := Option.some.inj hf2
                subst heq
                refine ⟨w2, Ne.symm w3, ?_⟩
                by_cases hux : colPrev u i = g.exitV
                · exact Or.inl hux
                · exact Or.inr (fun hr => hux (reaches_no_out hr w6))
        | MatchMove =>
            rw [hmove] at hgf
            obtain ⟨hi1, hedge, huE, huXx⟩ := cM hmove
            rcases i with _ | j
            · exact absurd hi1 (by omega)
            · rcases fork with _ | f
              · replace hgf : tbGo seq colMove colPrev colScore mode fuel (bumpReads g u)
                    (colPrev u (j + 1)) (some u) none j = some gf := hgf
                refine ih (bumpReads g u) (colPrev u (j + 1)) (some u) none j
                  ⟨w1, w2, w3, w4, w5, w6, w7⟩ hgE hgX hnext hsub
                  ((z4 _ hedge).1) (by omega) ?_ ?_ ?_ ?_ gf hgf
                · intro v2 hv2
                  obtain rfl := Option.some.inj hv2
                  exact ⟨by show u < g.nextId; omega,
                    Or.inr (Or.inr (Or.inl (hsub _ hedge)))⟩
                · intro h0; exact Option.noConfusion h0
                · intro heq
                  have huu : u = colPrev u (j + 1) := Option.some.inj heq
                  exact (z7 _ u hedge
                    (by rw [← huu]; exact Relation.ReflTransGen.refl)).elim
                · intro f2 hf2; exact Option.noConfusion hf2
              · replace hgf : tbGo seq colMove colPrev colScore mode fuel
                    (bumpReads (addEdge g u f) u) (colPrev u (j + 1)) (some u) none j
                    = some gf := hgf
                obtain ⟨k1, k2, k3⟩ := hfork f rfl
                have hnru : ¬ Reaches g.edges f u := by
                  rcases k3 with h | h
                  · exact absurd (h.trans hgX) huXx
                  · exact h
                have hwf2 : WF (addEdge g u f) :=
                  addEdge_WF ⟨w1, w2, w3, w4, w5, w6, w7⟩ (by omega) k1 k2
                    (fun h => huXx (h.trans hgX)) hnru
                refine ih (bumpReads (addEdge g u f) u) (colPrev u (j + 1)) (some u) none j
                  (bumpReads_WF hwf2 u) hgE hgX hnext
                  (fun e he => List.mem_append.mpr (Or.inl (hsub e he)))
                  ((z4 _ hedge).1) (by omega) ?_ ?_ ?_ ?_ gf hgf
                · intro v2 hv2
                  obtain rfl := Option.some.inj hv2
                  exact ⟨by show u < g.nextId; omega,
                    Or.inr (Or.inr (Or.inl (List.mem_append.mpr (Or.inl (hsub _ hedge)))))⟩
                · intro h0; exact Option.noConfusion h0
                · intro heq
                  have huu : u = colPrev u (j + 1) := Option.some.inj heq
                  exact (z7 _ u hedge
                    (by rw [← huu]; exact Relation.ReflTransGen.refl)).elim
                · intro f2 hf2; exact Option.noConfusion hf2
        | DeleteMove =>
            rw [hmove] at hgf
            obtain ⟨hedge, huE, huXx⟩ := cD hmove
            replace hgf : tbGo seq colMove colPrev colScore mode fuel g (colPrev u i)
                (some u) (if fork = none then v else fork) i = some gf := hgf
            refine ih g (colPrev u i) (some u) (if fork = none then v else fork) i
              ⟨w1, w2, w3, w4, w5, w6, w7⟩ hgE hgX hnext hsub
              ((z4 _ hedge).1) hi ?_ ?_ ?_ ?_ gf hgf
            · intro v2 hv2
              obtain rfl := Option.some.inj hv2
              exact ⟨by omega, Or.inr (Or.inr (Or.inl (hsub _ hedge)))⟩
            · intro h0; exact Option.noConfusion h0
            · intro heq
              have huu : u = colPrev u i := Option.some.inj heq
              exact (z7 _ u hedge
                (by rw [← huu]; exact Relation.ReflTransGen.refl)).elim
            · intro f2 hf2
              obtain ⟨k1, k2, k3⟩ := hfk f2 hf2
              have hnru : ¬ Reaches g.edges f2 u := by
                rcases k3 with h | h
                · exact absurd (h.trans hgX) huXx
                · exact h
              refine ⟨k1, k2, Or.inr ?_⟩
              intro hr
              exact hnru (Relation.ReflTransGen.tail hr (hsub _ hedge))
        | MismatchMove =>
            rw [hmove] at hgf
            obtain ⟨hi1, hedge, huE, huXx⟩ := cMM hmove
            rcases i with _ | j
            · exact absurd hi1 (by omega)
            · rcases hfks : (if fork = none then v else fork) with _ | f
              · rw [hfks] at hgf
                exact Option.noConfusion hgf
              · rw [hfks] at hgf
                replace hgf : tbGo seq colMove colPrev colScore mode fuel
                    (addEdge (addVertex g (seq.getD j 'A')).2
                      (addVertex g (seq.getD j 'A')).1 f)
                    (colPrev u (j + 1)) (some u)
                    (some (addVertex g (seq.getD j 'A')).1) j = some gf := hgf
                obtain ⟨k1, k2, k3⟩ := hfk f hfks
                have hnru : ¬ Reaches g.edges f u := by
                  rcases k3 with h | h
                  · exact absurd (h.trans hgX) huXx
                  · exact h
                have hwfg2 : WF (addEdge (addVertex g (seq.getD j 'A')).2
                    (addVertex g (seq.getD j 'A')).1 f) := by
                  refine addEdge_WF (addVertex_WF ⟨w1, w2, w3, w4, w5, w6, w7⟩ _) ?_ ?_ ?_ ?_ ?_
                  · show g.nextId < g.nextId + 1; omega
                  · show f < g.nextId + 1; omega
                  · exact k2
                  · show g.nextId ≠ g.exitV; omega
                  · show ¬ Reaches g.edges f g.nextId
                    intro hr
                    have := reaches_no_in hr (fresh_no_edge w4 (le_refl _)).2
                    omega
                refine ih _ (colPrev u (j + 1)) (some u)
                  (some (addVertex g (seq.getD j 'A')).1) j
                  hwfg2 hgE hgX (by show g₀.nextId ≤ g.nextId + 1; omega)
                  (fun e he => List.mem_append.mpr (Or.inl (hsub e he)))
                  ((z4 _ hedge).1) (by omega) ?_ ?_ ?_ ?_ gf hgf
                · intro v2 hv2
                  obtain rfl := Option.some.inj hv2
                  refine ⟨by show u < g.nextId + 1; omega,
                    Or.inr (Or.inr (Or.inl (List.mem_append.mpr (Or.inl (hsub _ hedge)))))⟩
                · intro h0; exact Option.noConfusion h0
                · intro _; exact Option.some_ne_none _
                · intro f2 hf2
                  obtain heq := Option.some.inj hf2
                  subst heq
                  refine ⟨by show g.nextId < g.nextId + 1; omega,
                    by show g.nextId ≠ g.enterV; omega, Or.inr ?_⟩
                  intro hr
                  have hr2 : Reaches (g.edges ++ [(g.nextId, f)]) g.nextId
                      (colPrev u (j + 1)) := hr
                  rcases reaches_snoc_decompose hr2 with h1 | ⟨h2, h3⟩
                  · have hcp := reaches_no_out h1 (fresh_no_edge w4 (le_refl _)).1
                    have hblt := (z4 _ hedge).1
                    omega
                  · exact hnru (Relation.ReflTransGen.tail h3 (hsub _ hedge))
        | ExtraMove =>
            rw [hmove] at hgf
            obtain ⟨hi1, hpeq, huXx⟩ := cE hmove
            rcases i with _ | j
            · exact absurd hi1 (by omega)
            · rcases hfks : (if fork = none then v else fork) with _ | f
              · rw [hfks] at hgf
                exact Option.noConfusion hgf
              · rw [hfks] at hgf
                replace hgf : tbGo seq colMove colPrev colScore mode fuel
                    (addEdge (addVertex g (seq.getD j 'A')).2
                      (addVertex g (seq.getD j 'A')).1 f)
                    (colPrev u (j + 1)) (some u)
                    (some (addVertex g (seq.getD j 'A')).1) j = some gf := hgf
                obtain ⟨k1, k2, k3⟩ := hfk f hfks
                have hnru : ¬ Reaches g.edges f u := by
                  rcases k3 with h | h
                  · exact absurd (h.trans hgX) huXx
                  · exact h
                have hwfg2 : WF (addEdge (addVertex g (seq.getD j 'A')).2
                    (addVertex g (seq.getD j 'A')).1 f) := by
                  refine addEdge_WF (addVertex_WF ⟨w1, w2, w3, w4, w5, w6, w7⟩ _) ?_ ?_ ?_ ?_ ?_
                  · show g.nextId < g.nextId + 1; omega
                  · show f < g.nextId + 1; omega
                  · exact k2
                  · show g.nextId ≠ g.exitV; omega
                  · show ¬ Reaches g.edges f g.nextId
                    intro hr
                    have := reaches_no_in hr (fresh_no_edge w4 (le_refl _)).2
                    omega
                refine ih _ (colPrev u (j + 1)) (some u)
                  (some (addVertex g (seq.getD j 'A')).1) j
                  hwfg2 hgE hgX (by show g₀.nextId ≤ g.nextId + 1; omega)
                  (fun e he => List.mem_append.mpr (Or.inl (hsub e he)))
                  (by rw [hpeq]; exact hu) (by omega) ?_ ?_ ?_ ?_ gf hgf
                · intro v2 hv2
                  obtain rfl := Option.some.inj hv2
                  exact ⟨by show u < g.nextId + 1; omega, Or.inr (Or.inl hpeq)⟩
                · intro h0; exact Option.noConfusion h0
                · intro _; exact Option.some_ne_none _
                · intro f2 hf2
                  obtain heq := Option.some.inj hf2
                  subst heq
                  refine ⟨by show g.nextId < g.nextId + 1; omega,
                    by show g.nextId ≠ g.enterV; omega, Or.inr ?_⟩
                  intro hr
                  rw [hpeq] at hr
                  have hr2 : Reaches (g.edges ++ [(g.nextId, f)]) g.nextId u := hr
                  rcases reaches_snoc_decompose hr2 with h1 | ⟨h2, h3⟩
                  · have hcp := reaches_no_out h1 (fresh_no_edge w4 (le_refl _)).1
                    omega
                  · exact hnru h3

/-- The freshly constructed POA graph: only the two terminal vertices. -/
def initialPoa : PoaGraph :=
  { nextId := 2, enterV := 0, exitV := 1, edges := [], bases := [], reads := [] }

/-- One read added to the graph: either the first read (`threadFirstRead`)
or a subsequent read, threaded by `tracebackAndThread` along a valid
alignment column map that terminated normally. -/
inductive ThreadStep : PoaGraph → PoaGraph → Prop where
  | first (g g2 : PoaGraph) (seq : List Char)
      (h : threadFirstRead g seq = some g2) : ThreadStep g g2
  | subsequent (g g2 : PoaGraph) (seq : List Char) (colMove : Nat → Nat → MoveT)
      (colPrev : Nat → Nat → Nat) (colScore : Nat → Nat → ℚ) (mode : AlignMode)
      (fuel : Nat) (hvalid : ValidCols g seq.length colMove colPrev)
      (hrun : tracebackAndThread seq colMove colPrev colScore mode fuel g = some g2) :
      ThreadStep g g2

theorem tracebackAndThread_WF {g g2 : PoaGraph} {seq : List Char}
    {colMove : Nat → Nat → MoveT} {colPrev : Nat → Nat → Nat}
    {colScore : Nat → Nat → ℚ} {mode : AlignMode} {fuel : Nat} (hwf : WF g)
    (hval : ValidCols g seq.length colMove colPrev)
    (h : tracebackAndThread seq colMove colPrev colScore mode fuel g = some g2) :
    WF g2 := by
  refine tbGo_wf seq colMove colPrev colScore mode g hwf hval fuel g g.exitV none none
    seq.length hwf rfl rfl (le_refl _) (fun e he => he) hwf.2.1 (le_refl _)
    ?_ (fun _ => rfl) ?_ ?_ g2 h
  · intro v2 hv2; exact Option.noConfusion hv2
  · intro hv2; exact Option.noConfusion hv2
  · intro f hf; exact Option.noConfusion hf

theorem ThreadStep_WF {g g2 : PoaGraph} (hwf : WF g) (hstep : ThreadStep g g2) :
    WF g2 := by
  cases hstep with
  | first seq h => exact threadFirstRead_WF hwf h
  | subsequent seq colMove colPrev colScore mode fuel hval hrun =>
      exact tracebackAndThread_WF hwf hval hrun

/-- The column map used by the witness run: the second read "AC" is
aligned onto the chain enter -> 2 -> 3 -> exit by two Match moves. -/
def c4cm : Nat → Nat → MoveT := fun w i =>
  if w = 0 then MoveT.StartMove
  else if w = 1 then MoveT.EndMove
  else if w = 2 ∧ i = 1 then MoveT.MatchMove
  else if w = 3 ∧ i = 2 then MoveT.MatchMove
  else MoveT.DeleteMove

/-- PreviousVertex of the witness column map. -/
def c4cp : Nat → Nat → Nat := fun w _ =>
  if w = 1 then 3 else if w = 2 then 0 else if w = 3 then 2 else 0

/-- Score column of the witness map (unused in GLOBAL mode). -/
def c4cs : Nat → Nat → ℚ := fun _ _ => 0

/-- The graph after threading the first read "AC". -/
def c4g1 : PoaGraph :=
  { nextId := 4, enterV := 0, exitV := 1, edges := [(0, 2), (2, 3), (3, 1)],
    bases := [(2, 'A'), (3, 'C')], reads := [(2, 1), (3, 1)] }

/-- The graph after also threading a second read "AC" by traceback. -/
def c4g2 : PoaGraph :=
  { nextId := 4, enterV := 0, exitV := 1, edges := [(0, 2), (2, 3), (3, 1), (3, 1)],
    bases := [(2, 'A'), (3, 'C')], reads := [(2, 2), (3, 2)] }

/-- **Claim C4** (POA graph acyclicity): starting from any well-formed POA
graph (in particular the freshly constructed one), after any sequence of
read threadings — the first read threaded linearly by `threadFirstRead`,
each subsequent read threaded by `tracebackAndThread` along a valid
alignment column map — the POA graph remains a directed acyclic graph:
every edge added during threading goes from an existing or fresh vertex
into a vertex that cannot reach it, so no cycle is ever created. -/
theorem C4_poa_threading_acyclic (g gf : PoaGraph) (hwf : WF g)
    (hchain : Relation.ReflTransGen ThreadStep g gf) : Acyclic gf.edges := by
  have hwff : WF gf := by
    induction hchain with
    | refl => exact hwf
    | tail hrest hstep ih => exact ThreadStep_WF ih hstep
  exact hwff.2.2.2.2.2.2

theorem C4_poa_threading_acyclic_witness :
    WF initialPoa ∧
    threadFirstRead initialPoa ['A', 'C'] = some c4g1 ∧
    tracebackAndThread ['A', 'C'] c4cm c4cp c4cs AlignMode.GLOBAL 10 c4g1 = some c4g2 ∧
    Acyclic c4g2.edges := by
  have hwf0 : WF initialPoa :=
    ⟨by decide, by decide, by decide,
     fun e he => absurd he (List.not_mem_nil e),
     fun e he => absurd he (List.not_mem_nil e),
     fun e he => absurd he (List.not_mem_nil e),
     fun a b h => absurd h (List.not_mem_nil _)⟩
  have h1 : threadFirstRead initialPoa ['A', 'C'] = some c4g1 := by decide
  have h2 : tracebackAndThread ['A', 'C'] c4cm c4cp c4cs AlignMode.GLOBAL 10 c4g1 =
      some c4g2 := by decide
  have hval : ValidCols c4g1 (['A', 'C'] : List Char).length c4cm c4cp := by decide
  refine ⟨hwf0, h1, h2, ?_⟩
  exact C4_poa_threading_acyclic initialPoa c4g2 hwf0
    (Relation.ReflTransGen.tail
      (Relation.ReflTransGen.single (ThreadStep.first initialPoa c4g1 ['A', 'C'] h1))
      (ThreadStep.subsequent c4g1 c4g2 ['A', 'C'] c4cm c4cp c4cs AlignMode.GLOBAL 10
        hval h2))

end ConsensusCore
